import Mathlib

/-!
Verification of the nimi chat-session / streaming-response subsystem
(`src/content-script.js`).  The JavaScript class state and methods are
shallowly embedded as pure Lean functions: the mutable `this` state becomes
an explicit `StoreState` value, nondeterministic inputs (current time,
random id suffix, page url) become explicit parameters, and the streaming
`fetch`/reader loop becomes a pure function over the list of decoded
transport chunks.
-/

namespace Nimi

/-! ## Data model (content-script.js: constructor, §3 of the class state) -/

/-- One chat message, as pushed by `addMessage`:
`{ role, content, timestamp: new Date().toISOString() }`. -/
structure ChatMessage where
  role : String
  content : String
  timestamp : String
deriving Repr, DecidableEq

/-- One chat session, as created by `initChatSession`. -/
structure ChatSession where
  id : String
  title : String
  messages : List ChatMessage
  createdAt : String
  updatedAt : String
  url : String
deriving Repr, DecidableEq

/-- The mutable state of the class that the session methods touch:
`this.chatSessions` (a `Map`, modelled as an insertion-ordered association
list) and `this.currentChatSession` (a string id or `null`). -/
structure StoreState where
  chatSessions : List (String × ChatSession)
  currentChatSession : Option String
deriving Repr, DecidableEq

/-- The `new Map()` / `null`: the state set up by the constructor. -/
def initialState : StoreState := { chatSessions := [], currentChatSession := none }

/-- The `Map.prototype.get`. -/
def mapGet (m : List (String × ChatSession)) (k : String) : Option ChatSession :=
  (m.find? (fun p => p.1 = k)).map (·.2)

/-- The `Map.prototype.get` applied to `this.currentChatSession`, which may be
`null` (never a key of the map). -/
def mapGetOpt (m : List (String × ChatSession)) : Option String → Option ChatSession
  | none => none
  | some k => mapGet m k

/-- The `Map.prototype.set`: overwrite in place when the key exists (keeping its
position), append otherwise. -/
def mapSet (m : List (String × ChatSession)) (k : String) (v : ChatSession) :
    List (String × ChatSession) :=
  if (m.find? (fun p => p.1 = k)).isSome then
    m.map (fun p => if p.1 = k then (k, v) else p)
  else m ++ [(k, v)]

/-- JS truthiness of `this.currentChatSession` (`!this.currentChatSession`):
`null` and the empty string are falsy. -/
def isFalsyId : Option String → Bool
  | none => true
  | some s => s = ""

/-- The `generateSessionId()`: `'chat_' + Date.now() + '_' + Math.random()...`,
with the clock value and random suffix as explicit parameters. -/
def generateSessionId (nowMs : ℕ) (rand : String) : String :=
  "chat_" ++ toString nowMs ++ "_" ++ rand

/-- The nondeterministic inputs a mutating call reads from the environment:
`Date.now()`, the random suffix, `new Date().toISOString()`,
`window.location.href`. -/
structure Env where
  nowMs : ℕ
  rand : String
  now : String
  href : String
deriving Repr, DecidableEq

/-- The `initChatSession()`: if `!this.currentChatSession`, generate an id, make
it current and insert a fresh session titled `'新对话'`; otherwise no-op.
(`saveChatSessions` only persists and does not change the in-memory state.) -/
def initChatSession (e : Env) (st : StoreState) : StoreState :=
  if isFalsyId st.currentChatSession then
    let sessionId := generateSessionId e.nowMs e.rand
    { st with
      currentChatSession := some sessionId
      chatSessions := mapSet st.chatSessions sessionId
        { id := sessionId, title := "新对话", messages := [],
          createdAt := e.now, updatedAt := e.now, url := e.href } }
  else st

/-- The `addMessage(role, content)`: init the session if none is current, then
push the message, refresh `updatedAt`, and derive the title from the first
user message (truncated past 50 characters). -/
def addMessage (e : Env) (role content : String) (st : StoreState) : StoreState :=
  let st1 := if isFalsyId st.currentChatSession then initChatSession e st else st
  match st1.currentChatSession with
  | none => st1
  | some cur =>
    match mapGet st1.chatSessions cur with
    | none => st1
    | some session =>
      let msgs := session.messages ++ [⟨role, content, e.now⟩]
      let title :=
        if role = "user" ∧ msgs.length = 1 then
          if content.length > 50 then content.take 50 ++ "..." else content
        else session.title
      { st1 with
        chatSessions := mapSet st1.chatSessions cur
          { session with messages := msgs, updatedAt := e.now, title := title } }

/-- The `getChatContext()`: the unabridged message list of the current session. -/
def getChatContext (st : StoreState) : List ChatMessage :=
  if isFalsyId st.currentChatSession then []
  else
    match mapGetOpt st.chatSessions st.currentChatSession with
    | none => []
    | some session => session.messages

/-- The `getAIContext()`: the message list of the current session, truncated to
the most recent 20 entries (`messages.slice(-maxMessages)`). -/
def getAIContext (st : StoreState) : List ChatMessage :=
  if isFalsyId st.currentChatSession then []
  else
    match mapGetOpt st.chatSessions st.currentChatSession with
    | none => []
    | some session =>
      let maxMessages := 20
      if session.messages.length ≤ maxMessages then session.messages
      else session.messages.drop (session.messages.length - maxMessages)

/-- The `createNewChat()`: drop the current pointer, then `initChatSession`. -/
def createNewChat (e : Env) (st : StoreState) : StoreState :=
  initChatSession e { st with currentChatSession := none }

/-- The `clearCurrentChat()`: if a current session exists, empty its message
list, refresh `updatedAt` and reset its title to the placeholder. -/
def clearCurrentChat (e : Env) (st : StoreState) : StoreState :=
  if isFalsyId st.currentChatSession then st
  else
    match st.currentChatSession with
    | none => st
    | some cur =>
      match mapGet st.chatSessions cur with
      | none => st
      | some session =>
        { st with
          chatSessions := mapSet st.chatSessions cur
            { session with messages := [], updatedAt := e.now, title := "新对话" } }

/-- The `switchChatSession(sessionId)`: make `sessionId` current when present. -/
def switchChatSession (sessionId : String) (st : StoreState) : StoreState × Bool :=
  if (mapGet st.chatSessions sessionId).isSome then
    ({ st with currentChatSession := some sessionId }, true)
  else (st, false)

/-- The `saveAIMessageToHistory(content)`: overwrite the trailing assistant
message in place when there is one, otherwise append a new assistant
message; refresh `updatedAt` either way. -/
def saveAIMessageToHistory (e : Env) (content : String) (st : StoreState) : StoreState :=
  let st1 := if isFalsyId st.currentChatSession then initChatSession e st else st
  match st1.currentChatSession with
  | none => st1
  | some cur =>
    match mapGet st1.chatSessions cur with
    | none => st1
    | some session =>
      let msgs :=
        match session.messages.getLast? with
        | some lastMessage =>
          if lastMessage.role = "assistant" then
            session.messages.dropLast ++ [{ lastMessage with content := content, timestamp := e.now }]
          else session.messages ++ [⟨"assistant", content, e.now⟩]
        | none => session.messages ++ [⟨"assistant", content, e.now⟩]
      { st1 with
        chatSessions := mapSet st1.chatSessions cur
          { session with messages := msgs, updatedAt := e.now } }

/-! ## Streaming chat client (`callChatAPI`, content-script.js:2000-2086)

The SSE read loop is embedded as a pure function over the list of decoded
transport chunks.  `JSON.parse` is a platform primitive, not repository
code, so it is a parameter `parse : String → Option Json` (`none` = the
parse threw); the field navigation
`parsed.choices && parsed.choices[0] && parsed.choices[0].delta` and
`delta.content || ''` are embedded faithfully over a small JSON value
type, including JS truthiness and string coercion of `+=`. -/

/-- A JSON value as produced by `JSON.parse`. -/
inductive Json where
  | null
  | bool (b : Bool)
  | num (n : ℤ)
  | str (s : String)
  | arr (elems : List Json)
  | obj (fields : List (String × Json))

/-- JS property access `v.k`: `undefined` (here `none`) unless `v` is an
object with the field. -/
def Json.getField : Json → String → Option Json
  | .obj fields, k => (fields.find? (fun p => p.1 = k)).map (·.2)
  | _, _ => none

/-- JS index access `v[0]`: element 0 of an array, else `undefined`. -/
def Json.index0 : Json → Option Json
  | .arr elems => elems.head?
  | _ => none

/-- JS truthiness of a JSON value. -/
def Json.truthy : Json → Bool
  | .null => false
  | .bool b => b
  | .num n => n ≠ 0
  | .str s => s ≠ ""
  | .arr _ => true
  | .obj _ => true

/-- JS string coercion, as applied by `fullResponse += content`. -/
def Json.jsToString : Json → String
  | .null => "null"
  | .bool b => if b then "true" else "false"
  | .num n => toString n
  | .str s => s
  | .arr _ => ""
  | .obj _ => "[object Object]"

/-- The truthiness-guarded navigation
`parsed.choices && parsed.choices[0] && parsed.choices[0].delta` followed by
`const content = ...delta.content || ''; if (content) ...`: `some` exactly
when a (truthy) fragment would be appended and dispatched. -/
def extractDelta (parsed : Json) : Option String :=
  match parsed.getField "choices" with
  | none => none
  | some choices =>
    if choices.truthy then
      match choices.index0 with
      | none => none
      | some c0 =>
        if c0.truthy then
          match c0.getField "delta" with
          | none => none
          | some delta =>
            if delta.truthy then
              match delta.getField "content" with
              | none => none
              | some content => if content.truthy then some content.jsToString else none
            else none
        else none
    else none

/-- One callback invocation observed by the caller of `callChatAPI`. -/
inductive Ev where
  | delta (frag acc : String)
  | complete (final : String)
deriving Repr, DecidableEq

/-- The `split('\n')` on the character sequence of a JS string. -/
def splitNl : List Char → List (List Char)
  | [] => [[]]
  | c :: rest =>
    if c = '\n' then [] :: splitNl rest
    else
      match splitNl rest with
      | h :: t => (c :: h) :: t
      | [] => [[c]]

/-- The JS whitespace characters `\s` that `String.prototype.trim` strips
(the practically occurring ones). -/
def jsWhitespace (c : Char) : Bool :=
  c = ' ' || c = '\t' || c = '\n' || c = '\r' || c = '\x0B' || c = '\x0C' || c = '\u00A0'

/-- The `line.trim() !== ''`: the line has some non-whitespace character. -/
def lineNonBlank (l : List Char) : Bool := l.any (fun c => !jsWhitespace c)

/-- The `chunk.split('\n').filter(line => line.trim() !== '')`. -/
def linesOfChunk (chunk : String) : List (List Char) :=
  (splitNl chunk.data).filter lineNonBlank

/-- The frame marker `'data: '`. -/
def dataMarker : List Char := ['d', 'a', 't', 'a', ':', ' ']

/-- The termination sentinel `'[DONE]'`. -/
def doneSentinel : List Char := ['[', 'D', 'O', 'N', 'E', ']']

/-- Is `line` the termination frame `data: [DONE]`? -/
def isDoneLine (line : List Char) : Bool :=
  dataMarker.isPrefixOf line && (line.drop 6 = doneSentinel)

/-- The inner `for (const line of lines)` loop, threading `fullResponse`.
Returns the emitted callback events, the value of `fullResponse` on exit,
and whether the loop exited through the `[DONE]` early `return`. -/
def processLines (parse : String → Option Json) :
    List (List Char) → String → List Ev × String × Bool
  | [], acc => ([], acc, false)
  | line :: rest, acc =>
    if dataMarker.isPrefixOf line then
      let data := line.drop 6
      if data = doneSentinel then ([Ev.complete acc], acc, true)
      else
        match parse (String.mk data) with
        | some parsed =>
          match extractDelta parsed with
          | some content =>
            let acc' := acc ++ content
            let r := processLines parse rest acc'
            (Ev.delta content acc' :: r.1, r.2)
          | none => processLines parse rest acc
        | none => processLines parse rest acc
    else processLines parse rest acc

/-- The outer `while (true)` reader loop over transport chunks; a `[DONE]`
inside a chunk returns immediately, the `done` signal (chunk list
exhausted) breaks out with the accumulated text. -/
def processChunks (parse : String → Option Json) :
    List String → String → List Ev × String × Bool
  | [], acc => ([], acc, false)
  | chunk :: rest, acc =>
    let r := processLines parse (linesOfChunk chunk) acc
    if r.2.2 then r
    else
      let r2 := processChunks parse rest r.2.1
      (r.1 ++ r2.1, r2.2)

/-- The HTTP response as seen by `callChatAPI`: status, body text (read only
on failure) and the decoded streamed chunks. -/
structure HttpResponse where
  status : ℕ
  bodyText : String
  chunks : List String
deriving Repr, DecidableEq

/-- The `Response.ok`: status in the inclusive range 200-299. -/
def HttpResponse.ok (r : HttpResponse) : Bool :=
  200 ≤ r.status && r.status ≤ 299

/-- The `callChatAPI`: on a non-ok status throw
``new Error(`API请求失败 (${response.status}): ${errorText}`)``; otherwise
run the streaming loop and return `fullResponse`.  The first component is
the list of callback invocations (`onStreamChunk` / `onStreamComplete`). -/
def callChatAPI (parse : String → Option Json) (resp : HttpResponse) :
    List Ev × Except String String :=
  if resp.ok then
    let r := processChunks parse resp.chunks ""
    (r.1, .ok r.2.1)
  else
    ([], .error ("API请求失败 (" ++ toString resp.status ++ "): " ++ resp.bodyText))

/-- The fragments passed to `onStreamChunk`, in arrival order. -/
def deltaFrags (evs : List Ev) : List String :=
  evs.filterMap (fun e => match e with | .delta frag _ => some frag | _ => none)

/-- The arguments passed to `onStreamComplete`, in arrival order. -/
def completeArgs (evs : List Ev) : List String :=
  evs.filterMap (fun e => match e with | .complete final => some final | _ => none)

/-- Concatenation of a list of strings in order. -/
def strConcat : List String → String
  | [] => ""
  | s :: rest => s ++ strConcat rest

/-- Does this line list contain a `data: [DONE]` frame? -/
def doneInLines (lines : List (List Char)) : Bool := lines.any isDoneLine

/-- Does some chunk of the stream contain a `data: [DONE]` frame? -/
def doneInChunks (chunks : List String) : Bool :=
  chunks.any (fun c => doneInLines (linesOfChunk c))

/-! ## Association-list (`Map`) lemmas -/

theorem find?_updated_self (m : List (String × ChatSession)) (k : String) (v : ChatSession)
    (h : (m.find? (fun p => p.1 = k)).isSome) :
    (m.map (fun p => if p.1 = k then (k, v) else p)).find? (fun p => p.1 = k) = some (k, v) := by
  induction m with
  | nil => simp at h
  | cons a m ih =>
    by_cases hk : a.1 = k
    · simp [hk]
    · rw [List.find?_cons_of_neg _ (by simp [hk])] at h
      simpa [hk, List.find?_cons_of_neg _ (show ¬(decide (a.1 = k) = true) by simp [hk])]
        using ih h

theorem mapGet_mapSet_self (m : List (String × ChatSession)) (k : String) (v : ChatSession) :
    mapGet (mapSet m k v) k = some v := by
  unfold mapGet mapSet
  by_cases h : (m.find? (fun p => p.1 = k)).isSome
  · simp only [h, if_pos, find?_updated_self m k v h, Option.map_some']
  · rw [if_neg (by simpa using h), List.find?_append]
    rw [Option.isSome_iff_exists] at h
    push_neg at h
    have hnone : m.find? (fun p => decide (p.1 = k)) = none :=
      Option.eq_none_iff_forall_not_mem.mpr (fun a ha => h a ha)
    simp [hnone]

theorem find?_updated_ne (m : List (String × ChatSession)) (k k' : String) (v : ChatSession)
    (h : k' ≠ k) :
    (m.map (fun p => if p.1 = k then (k, v) else p)).find? (fun p => p.1 = k') =
      m.find? (fun p => p.1 = k') := by
  induction m with
  | nil => rfl
  | cons a m ih =>
    rw [List.map_cons]
    by_cases hk : a.1 = k
    · rw [if_pos hk,
        @List.find?_cons_of_neg _ (fun p => decide (p.1 = k')) (k, v) _ (by simp [Ne.symm h]),
        @List.find?_cons_of_neg _ (fun p => decide (p.1 = k')) a _ (by simp [hk, Ne.symm h]), ih]
    · rw [if_neg hk]
      by_cases ha : a.1 = k'
      · rw [@List.find?_cons_of_pos _ (fun p => decide (p.1 = k')) a _ (by simp [ha]),
          @List.find?_cons_of_pos _ (fun p => decide (p.1 = k')) a _ (by simp [ha])]
      · rw [@List.find?_cons_of_neg _ (fun p => decide (p.1 = k')) a _ (by simp [ha]),
          @List.find?_cons_of_neg _ (fun p => decide (p.1 = k')) a _ (by simp [ha]), ih]

theorem mapGet_mapSet_ne (m : List (String × ChatSession)) (k k' : String) (v : ChatSession)
    (h : k' ≠ k) : mapGet (mapSet m k v) k' = mapGet m k' := by
  unfold mapGet mapSet
  by_cases hmem : (m.find? (fun p => p.1 = k)).isSome
  · simp only [hmem, if_pos, find?_updated_ne m k k' v h]
  · rw [if_neg (by simpa using hmem), List.find?_append]
    rcases hfk : m.find? (fun p => decide (p.1 = k')) with _ | a
    · simp [hfk, Ne.symm h]
    · simp [hfk]

theorem mapSet_keys (m : List (String × ChatSession)) (k : String) (v : ChatSession)
    (h : (mapGet m k).isSome) : (mapSet m k v).map Prod.fst = m.map Prod.fst := by
  have hfind : (m.find? (fun p => p.1 = k)).isSome := by
    simp only [mapGet, Option.isSome_map'] at h
    exact h
  simp only [mapSet, hfind, if_pos, List.map_map]
  refine List.map_congr_left (fun p _ => ?_)
  by_cases hp : p.1 = k <;> simp [hp]

/-! ## Session-store theorems -/

theorem generateSessionId_ne_empty (nowMs : ℕ) (rand : String) :
    generateSessionId nowMs rand ≠ "" := by
  intro h
  have h0 := congrArg String.length h
  rw [generateSessionId] at h0
  rw [String.length_append, String.length_append, String.length_append] at h0
  have h5 : ("chat_" : String).length = 5 := rfl
  simp [h5] at h0

theorem isFalsyId_initChatSession (e : Env) (st : StoreState) :
    isFalsyId (initChatSession e st).currentChatSession = false := by
  unfold initChatSession
  by_cases hf : isFalsyId st.currentChatSession
  · simp only [hf, if_pos]
    simp [isFalsyId, generateSessionId_ne_empty]
  · simp only [Bool.not_eq_true] at hf
    simp [hf]

/-- C7: `initChatSession` is idempotent: a second call without an intervening
`createNewChat` is a no-op (it acts only when no current session exists), so
the whole state — in particular the current session id — is unchanged by the
second call. -/
theorem initChatSession_idempotent (e1 e2 : Env) (st : StoreState) :
    initChatSession e2 (initChatSession e1 st) = initChatSession e1 st ∧
    (initChatSession e2 (initChatSession e1 st)).currentChatSession
      = (initChatSession e1 st).currentChatSession := by
  have h : initChatSession e2 (initChatSession e1 st) = initChatSession e1 st := by
    rw [initChatSession, isFalsyId_initChatSession e1 st]
    simp
  exact ⟨h, by rw [h]⟩

/-- C9: when the current-session pointer names an id absent from the registry,
`addMessage` silently drops the message and leaves the state untouched. -/
theorem addMessage_dangling_pointer (e : Env) (role content : String) (st : StoreState)
    (cur : String) (hcur : st.currentChatSession = some cur) (hne : cur ≠ "")
    (habs : mapGet st.chatSessions cur = none) :
    addMessage e role content st = st := by
  have hf : isFalsyId (some cur) = false := by simp [isFalsyId, hne]
  unfold addMessage
  simp only [hcur, hf, Bool.false_eq_true, if_false, habs]

/-- Witness for C9 at a concrete dangling state. -/
theorem addMessage_dangling_pointer_witness :
    addMessage ⟨7, "r", "t0", "u0"⟩ "user" "hi"
        { chatSessions := [], currentChatSession := some "chat_1_x" }
      = { chatSessions := [], currentChatSession := some "chat_1_x" } :=
  addMessage_dangling_pointer _ _ _ _ "chat_1_x" rfl (by decide) rfl

/-- C8: `clearCurrentChat` empties the current session's messages and resets
its title, keeping the session in the registry under the same id, leaving the
pointer and every other session unchanged, and preserving the key set. -/
theorem clearCurrentChat_spec (e : Env) (st : StoreState) (cur : String) (sess : ChatSession)
    (hcur : st.currentChatSession = some cur) (hne : cur ≠ "")
    (hget : mapGet st.chatSessions cur = some sess) :
    (clearCurrentChat e st).currentChatSession = st.currentChatSession ∧
    mapGet (clearCurrentChat e st).chatSessions cur =
      some { sess with messages := [], updatedAt := e.now, title := "新对话" } ∧
    (∀ k, k ≠ cur → mapGet (clearCurrentChat e st).chatSessions k = mapGet st.chatSessions k) ∧
    (clearCurrentChat e st).chatSessions.map Prod.fst = st.chatSessions.map Prod.fst := by
  have hf : isFalsyId (some cur) = false := by simp [isFalsyId, hne]
  have hclear : clearCurrentChat e st =
      { st with chatSessions := (mapSet st.chatSessions cur
          ⟨sess.id, "新对话", [], sess.createdAt, e.now, sess.url⟩) } := by
    unfold clearCurrentChat
    simp only [hcur, hf, Bool.false_eq_true, if_false, hget]
  refine ⟨by rw [hclear], ?_, ?_, ?_⟩
  · rw [hclear]; exact mapGet_mapSet_self ..
  · intro k hk; rw [hclear]; exact mapGet_mapSet_ne _ _ _ _ hk
  · rw [hclear]; exact mapSet_keys _ _ _ (by rw [hget]; rfl)

/-- Witness for C8 at a concrete two-session state. -/
theorem clearCurrentChat_spec_witness :
    (clearCurrentChat ⟨9, "r", "t9", "u9"⟩
        { chatSessions :=
            [("id1", ⟨"id1", "hello", [⟨"user", "hello", "t1"⟩], "t0", "t1", "url1"⟩),
             ("id2", ⟨"id2", "other", [⟨"user", "x", "t2"⟩], "t0", "t2", "url2"⟩)],
          currentChatSession := some "id1" }).currentChatSession = some "id1" ∧
    mapGet (clearCurrentChat ⟨9, "r", "t9", "u9"⟩
        { chatSessions :=
            [("id1", ⟨"id1", "hello", [⟨"user", "hello", "t1"⟩], "t0", "t1", "url1"⟩),
             ("id2", ⟨"id2", "other", [⟨"user", "x", "t2"⟩], "t0", "t2", "url2"⟩)],
          currentChatSession := some "id1" }).chatSessions "id1"
      = some ⟨"id1", "新对话", [], "t0", "t9", "url1"⟩ ∧
    mapGet (clearCurrentChat ⟨9, "r", "t9", "u9"⟩
        { chatSessions :=
            [("id1", ⟨"id1", "hello", [⟨"user", "hello", "t1"⟩], "t0", "t1", "url1"⟩),
             ("id2", ⟨"id2", "other", [⟨"user", "x", "t2"⟩], "t0", "t2", "url2"⟩)],
          currentChatSession := some "id1" }).chatSessions "id2"
      = some ⟨"id2", "other", [⟨"user", "x", "t2"⟩], "t0", "t2", "url2"⟩ := by
  have h := clearCurrentChat_spec ⟨9, "r", "t9", "u9"⟩
    { chatSessions :=
        [("id1", ⟨"id1", "hello", [⟨"user", "hello", "t1"⟩], "t0", "t1", "url1"⟩),
         ("id2", ⟨"id2", "other", [⟨"user", "x", "t2"⟩], "t0", "t2", "url2"⟩)],
      currentChatSession := some "id1" }
    "id1" ⟨"id1", "hello", [⟨"user", "hello", "t1"⟩], "t0", "t1", "url1"⟩
    rfl (by decide) rfl
  exact ⟨h.1, h.2.1, (h.2.2.1 "id2" (by decide)).trans rfl⟩

/-! ## C10: `saveAIMessageToHistory` -/

/-- Does the trailing message of the list carry the assistant role? -/
def lastIsAssistant (msgs : List ChatMessage) : Bool :=
  match msgs.getLast? with
  | some m => m.role = "assistant"
  | none => false

/-- No two adjacent messages both carry the assistant role. -/
def noConsecAssistant : List ChatMessage → Bool
  | a :: b :: rest =>
    !(a.role = "assistant" && b.role = "assistant") && noConsecAssistant (b :: rest)
  | _ => true

theorem noConsecAssistant_append_ne (l : List ChatMessage) (x : ChatMessage)
    (h : noConsecAssistant l = true)
    (hlast : ∀ m, l.getLast? = some m → m.role ≠ "assistant") :
    noConsecAssistant (l ++ [x]) = true := by
  induction l with
  | nil => rfl
  | cons a l ih =>
    cases l with
    | nil =>
      have ha := hlast a rfl
      simp [noConsecAssistant, ha]
    | cons b t =>
      have hh : noConsecAssistant (b :: t) = true := by
        simp only [noConsecAssistant, Bool.and_eq_true] at h
        exact h.2
      have htail := ih hh (fun m hm => hlast m (by rw [List.getLast?_cons_cons]; exact hm))
      simp only [noConsecAssistant, Bool.and_eq_true] at h
      simp only [List.cons_append, noConsecAssistant, Bool.and_eq_true]
      exact ⟨h.1, by simpa using htail⟩

theorem noConsecAssistant_replace_last (l : List ChatMessage) (x y : ChatMessage)
    (hrole : y.role = x.role) (h : noConsecAssistant (l ++ [x]) = true) :
    noConsecAssistant (l ++ [y]) = true := by
  induction l with
  | nil => rfl
  | cons a l ih =>
    cases l with
    | nil =>
      simp only [List.cons_append, List.nil_append, noConsecAssistant, Bool.and_eq_true,
        hrole] at h ⊢
      exact ⟨h.1, trivial⟩
    | cons b t =>
      simp only [List.cons_append, noConsecAssistant, Bool.and_eq_true] at h ⊢
      exact ⟨h.1, by simpa using ih (by simpa using h.2)⟩

/-- C10: `saveAIMessageToHistory` overwrites a trailing assistant message in
place (same message count) and appends only when the session is empty or ends
in a user turn; in particular it never creates two consecutive assistant
messages. -/
theorem saveAIMessageToHistory_spec (e : Env) (content : String) (st : StoreState)
    (cur : String) (sess : ChatSession)
    (hcur : st.currentChatSession = some cur) (hne : cur ≠ "")
    (hget : mapGet st.chatSessions cur = some sess)
    (hroles : ∀ m ∈ sess.messages, m.role = "user" ∨ m.role = "assistant") :
    ∃ sess', mapGet (saveAIMessageToHistory e content st).chatSessions cur = some sess' ∧
      (lastIsAssistant sess.messages = true →
        sess'.messages = sess.messages.dropLast ++ [⟨"assistant", content, e.now⟩] ∧
        sess'.messages.length = sess.messages.length) ∧
      (lastIsAssistant sess.messages = false →
        sess'.messages = sess.messages ++ [⟨"assistant", content, e.now⟩] ∧
        (sess.messages.getLast? = none ∨
          ∃ m, sess.messages.getLast? = some m ∧ m.role = "user")) ∧
      (noConsecAssistant sess.messages = true → noConsecAssistant sess'.messages = true) := by
  have hf : isFalsyId (some cur) = false := by simp [isFalsyId, hne]
  have hsave : saveAIMessageToHistory e content st =
      { st with chatSessions := (mapSet st.chatSessions cur
          ⟨sess.id, sess.title,
            (match sess.messages.getLast? with
             | some lastMessage =>
               if lastMessage.role = "assistant" then
                 sess.messages.dropLast ++ [⟨lastMessage.role, content, e.now⟩]
               else sess.messages ++ [⟨"assistant", content, e.now⟩]
             | none => sess.messages ++ [⟨"assistant", content, e.now⟩]),
            sess.createdAt, e.now, sess.url⟩) } := by
    unfold saveAIMessageToHistory
    simp only [hcur, hf, Bool.false_eq_true, if_false, hget]
  refine ⟨_, by rw [hsave]; exact mapGet_mapSet_self .., ?_, ?_, ?_⟩
  · intro hlast
    rcases List.eq_nil_or_concat sess.messages with hnil | ⟨l', a, hconcat⟩
    · rw [hnil] at hlast; simp [lastIsAssistant] at hlast
    · rw [List.concat_eq_append] at hconcat
      have hlastsome : sess.messages.getLast? = some a := by
        rw [hconcat]; exact List.getLast?_concat _
      have harole : a.role = "assistant" := by
        simp only [lastIsAssistant, hlastsome, decide_eq_true_eq] at hlast
        exact hlast
      constructor
      · simp only [hlastsome, harole, if_pos]
      · simp only [hlastsome, harole, if_pos]
        rw [hconcat]
        simp
  · intro hlast
    rcases hcase : sess.messages.getLast? with _ | a
    · exact ⟨by simp only [hcase], Or.inl rfl⟩
    · have harole : ¬(a.role = "assistant") := by
        simp only [lastIsAssistant, hcase] at hlast
        simpa using hlast
      have hmem : a ∈ sess.messages := List.mem_of_getLast?_eq_some hcase
      have hauser : a.role = "user" := (hroles a hmem).resolve_right harole
      exact ⟨by simp [hcase, harole], Or.inr ⟨a, rfl, hauser⟩⟩
  · intro hnc
    rcases hcase : sess.messages.getLast? with _ | a
    · have hnil : sess.messages = [] := by
        cases hm : sess.messages with
        | nil => rfl
        | cons x t =>
          rcases List.eq_nil_or_concat (x :: t) with h0 | ⟨l', b, hcc⟩
          · simp at h0
          · rw [hm, hcc, List.concat_eq_append, List.getLast?_concat] at hcase
            simp at hcase
      simp only [hcase, hnil]
      rfl
    · by_cases harole : a.role = "assistant"
      · simp only [hcase, harole, if_pos]
        rcases List.eq_nil_or_concat sess.messages with hnil | ⟨l', b, hconcat⟩
        · rw [hnil] at hcase; simp at hcase
        · rw [List.concat_eq_append] at hconcat
          have hb : b = a := by
            rw [hconcat, List.getLast?_concat] at hcase
            exact Option.some_inj.mp hcase
          rw [hconcat, List.dropLast_concat]
          exact noConsecAssistant_replace_last l' b ⟨"assistant", content, e.now⟩
            (by simp [hb, harole]) (by rw [← hconcat]; exact hnc)
      · simp only [hcase, harole, if_neg, ite_false]
        exact noConsecAssistant_append_ne _ _ hnc
          (fun m hm => by rw [hcase] at hm; exact (Option.some_inj.mp hm) ▸ harole)

/-- Witness for C10 at a concrete session ending in an assistant turn. -/
theorem saveAIMessageToHistory_spec_witness :
    ∃ sess', mapGet (saveAIMessageToHistory ⟨3, "r", "t3", "u3"⟩ "done"
        { chatSessions :=
            [("id1", ⟨"id1", "q", [⟨"user", "q", "t1"⟩, ⟨"assistant", "a1", "t2"⟩], "t0", "t2", "url"⟩)],
          currentChatSession := some "id1" }).chatSessions "id1" = some sess' ∧
      (lastIsAssistant [⟨"user", "q", "t1"⟩, ⟨"assistant", "a1", "t2"⟩] = true →
        sess'.messages = ([⟨"user", "q", "t1"⟩, ⟨"assistant", "a1", "t2"⟩] :
            List ChatMessage).dropLast ++ [⟨"assistant", "done", "t3"⟩] ∧
        sess'.messages.length = ([⟨"user", "q", "t1"⟩, ⟨"assistant", "a1", "t2"⟩] :
            List ChatMessage).length) ∧
      (lastIsAssistant [⟨"user", "q", "t1"⟩, ⟨"assistant", "a1", "t2"⟩] = false →
        sess'.messages = [⟨"user", "q", "t1"⟩, ⟨"assistant", "a1", "t2"⟩] ++
            [⟨"assistant", "done", "t3"⟩] ∧
        (([⟨"user", "q", "t1"⟩, ⟨"assistant", "a1", "t2"⟩] :
            List ChatMessage).getLast? = none ∨
          ∃ m, ([⟨"user", "q", "t1"⟩, ⟨"assistant", "a1", "t2"⟩] :
              List ChatMessage).getLast? = some m ∧ m.role = "user")) ∧
      (noConsecAssistant [⟨"user", "q", "t1"⟩, ⟨"assistant", "a1", "t2"⟩] = true →
        noConsecAssistant sess'.messages = true) :=
  saveAIMessageToHistory_spec ⟨3, "r", "t3", "u3"⟩ "done"
    { chatSessions :=
        [("id1", ⟨"id1", "q", [⟨"user", "q", "t1"⟩, ⟨"assistant", "a1", "t2"⟩], "t0", "t2", "url"⟩)],
      currentChatSession := some "id1" }
    "id1" ⟨"id1", "q", [⟨"user", "q", "t1"⟩, ⟨"assistant", "a1", "t2"⟩], "t0", "t2", "url"⟩
    rfl (by decide) rfl (by decide)

/-! ## C3: contexts after repeated `addMessage` -/

/-- The arguments of one `addMessage` call. -/
structure AddCall where
  env : Env
  role : String
  content : String
deriving Repr, DecidableEq

/-- Run a sequence of `addMessage` calls in order. -/
def runAdds (calls : List AddCall) (st : StoreState) : StoreState :=
  calls.foldl (fun s c => addMessage c.env c.role c.content s) st

/-- The message a call appends. -/
def msgOfCall (c : AddCall) : ChatMessage := ⟨c.role, c.content, c.env.now⟩

theorem addMessage_healthy_step (e : Env) (role content : String) (st : StoreState)
    (cur : String) (sess : ChatSession)
    (hcur : st.currentChatSession = some cur) (hne : cur ≠ "")
    (hget : mapGet st.chatSessions cur = some sess) :
    (addMessage e role content st).currentChatSession = some cur ∧
    ∃ t, mapGet (addMessage e role content st).chatSessions cur =
      some ⟨sess.id, t, sess.messages ++ [⟨role, content, e.now⟩], sess.createdAt, e.now, sess.url⟩ := by
  have hf : isFalsyId (some cur) = false := by simp [isFalsyId, hne]
  have hadd : addMessage e role content st =
      { st with chatSessions := (mapSet st.chatSessions cur
          ⟨sess.id,
            (if role = "user" ∧ (sess.messages ++ [(⟨role, content, e.now⟩ : ChatMessage)]).length = 1 then
              (if content.length > 50 then content.take 50 ++ "..." else content)
            else sess.title),
            sess.messages ++ [⟨role, content, e.now⟩], sess.createdAt, e.now, sess.url⟩) } := by
    unfold addMessage
    simp only [hcur, hf, Bool.false_eq_true, if_false, hget]
  exact ⟨by rw [hadd]; exact hcur, _, by rw [hadd]; exact mapGet_mapSet_self ..⟩

theorem runAdds_healthy (calls : List AddCall) :
    ∀ (st : StoreState) (cur : String) (sess : ChatSession),
    st.currentChatSession = some cur → cur ≠ "" →
    mapGet st.chatSessions cur = some sess →
    (runAdds calls st).currentChatSession = some cur ∧
    ∃ sess', mapGet (runAdds calls st).chatSessions cur = some sess' ∧
      sess'.messages = sess.messages ++ calls.map msgOfCall := by
  induction calls with
  | nil =>
    intro st cur sess hcur hne hget
    exact ⟨hcur, sess, hget, by simp⟩
  | cons c rest ih =>
    intro st cur sess hcur hne hget
    obtain ⟨hcur', t, hget'⟩ := addMessage_healthy_step c.env c.role c.content st cur sess hcur hne hget
    have hrun : runAdds (c :: rest) st = runAdds rest (addMessage c.env c.role c.content st) := rfl
    obtain ⟨h1, sess', h2, h3⟩ := ih (addMessage c.env c.role c.content st) cur
      ⟨sess.id, t, sess.messages ++ [⟨c.role, c.content, c.env.now⟩], sess.createdAt, c.env.now, sess.url⟩
      hcur' hne hget'
    refine ⟨by rw [hrun]; exact h1, sess', by rw [hrun]; exact h2, ?_⟩
    rw [h3]
    simp [msgOfCall]

theorem getAIContext_eq_drop (st : StoreState) :
    getAIContext st = (getChatContext st).drop ((getChatContext st).length - 20) := by
  unfold getAIContext getChatContext
  by_cases hf : isFalsyId st.currentChatSession
  · simp [hf]
  · simp only [hf, Bool.false_eq_true, if_false]
    rcases mapGetOpt st.chatSessions st.currentChatSession with _ | sess
    · rfl
    · by_cases hlen : sess.messages.length ≤ 20
      · simp only [hlen, if_pos]
        rw [Nat.sub_eq_zero_of_le hlen, List.drop_zero]
      · simp [hlen]

/-- C3: starting from the fresh store, after a sequence of `addMessage` calls
`getChatContext` returns exactly those messages in call order, while
`getAIContext` returns the `min(N, 20)` most recent of them — always a
suffix of `getChatContext`. -/
theorem contexts_after_addMessages (calls : List AddCall) :
    getChatContext (runAdds calls initialState) = calls.map msgOfCall ∧
    getAIContext (runAdds calls initialState)
      = (getChatContext (runAdds calls initialState)).drop (calls.length - 20) ∧
    (getAIContext (runAdds calls initialState)).length = min calls.length 20 ∧
    (getAIContext (runAdds calls initialState)) <:+ getChatContext (runAdds calls initialState) := by
  have hchat : getChatContext (runAdds calls initialState) = calls.map msgOfCall := by
    cases calls with
    | nil => rfl
    | cons c rest =>
      have hstep : (addMessage c.env c.role c.content initialState).currentChatSession
            = some (generateSessionId c.env.nowMs c.env.rand) ∧
          mapGet (addMessage c.env c.role c.content initialState).chatSessions
              (generateSessionId c.env.nowMs c.env.rand)
            = some ⟨generateSessionId c.env.nowMs c.env.rand,
                (if c.role = "user" then
                    (if c.content.length > 50 then c.content.take 50 ++ "..." else c.content)
                  else "新对话"),
                [⟨c.role, c.content, c.env.now⟩], c.env.now, c.env.now, c.env.href⟩ := by
        unfold addMessage initChatSession initialState
        simp only [isFalsyId, if_pos]
        simp [mapGet, mapSet, List.find?]
      obtain ⟨h1, h2⟩ := hstep
      obtain ⟨h3, sess', h4, h5⟩ := runAdds_healthy rest
        (addMessage c.env c.role c.content initialState)
        (generateSessionId c.env.nowMs c.env.rand) _ h1
        (generateSessionId_ne_empty c.env.nowMs c.env.rand) h2
      have hrun : runAdds (c :: rest) initialState
          = runAdds rest (addMessage c.env c.role c.content initialState) := rfl
      rw [hrun]
      unfold getChatContext
      have hfc : isFalsyId (some (generateSessionId c.env.nowMs c.env.rand)) = false := by
        simp [isFalsyId, generateSessionId_ne_empty c.env.nowMs c.env.rand]
      simp only [h3, hfc, Bool.false_eq_true, if_false, mapGetOpt, h4]
      rw [h5]
      simp [msgOfCall]
  have hlen : (getChatContext (runAdds calls initialState)).length = calls.length := by
    rw [hchat]; exact List.length_map _ _
  have hai := getAIContext_eq_drop (runAdds calls initialState)
  refine ⟨hchat, by rw [hai, hlen], ?_, ?_⟩
  · rw [hai, List.length_drop, hlen]
    omega
  · rw [hai]
    exact List.drop_suffix _ _

/-! ## Streaming-client theorems -/

theorem strConcat_append (a b : List String) :
    strConcat (a ++ b) = strConcat a ++ strConcat b := by
  induction a with
  | nil => simp [strConcat]
  | cons s rest ih => simp [strConcat, ih, String.append_assoc]

theorem processLines_ret (parse : String → Option Json) (L : List (List Char)) :
    ∀ acc, (processLines parse L acc).2.1
      = acc ++ strConcat (deltaFrags (processLines parse L acc).1) := by
  induction L with
  | nil => intro acc; simp [processLines, deltaFrags, strConcat]
  | cons line rest ih =>
    intro acc
    by_cases hp : dataMarker.isPrefixOf line = true
    · by_cases hd : line.drop 6 = doneSentinel
      · simp [processLines, hp, hd, deltaFrags, strConcat]
      · rcases hparse : parse (String.mk (line.drop 6)) with _ | parsed
        · simpa [processLines, hp, hd, hparse] using ih acc
        · rcases hex : extractDelta parsed with _ | content
          · simpa [processLines, hp, hd, hparse, hex] using ih acc
          · have := ih (acc ++ content)
            simp [processLines, hp, hd, hparse, hex, deltaFrags, strConcat] at this ⊢
            rw [this, String.append_assoc]
    · simpa [processLines, hp] using ih acc

theorem processLines_fin (parse : String → Option Json) (L : List (List Char)) :
    ∀ acc, (processLines parse L acc).2.2 = doneInLines L := by
  induction L with
  | nil => intro acc; simp [processLines, doneInLines]
  | cons line rest ih =>
    intro acc
    by_cases hp : dataMarker.isPrefixOf line = true
    · by_cases hd : line.drop 6 = doneSentinel
      · simp [processLines, hp, hd, doneInLines, isDoneLine]
      · rcases hparse : parse (String.mk (line.drop 6)) with _ | parsed
        · simpa [processLines, hp, hd, hparse, doneInLines, isDoneLine] using ih acc
        · rcases hex : extractDelta parsed with _ | content
          · simpa [processLines, hp, hd, hparse, hex, doneInLines, isDoneLine] using ih acc
          · simpa [processLines, hp, hd, hparse, hex, doneInLines, isDoneLine]
              using ih (acc ++ content)
    · simpa [processLines, hp, doneInLines, isDoneLine] using ih acc

theorem processLines_completes (parse : String → Option Json) (L : List (List Char)) :
    ∀ acc, completeArgs (processLines parse L acc).1
      = (if (processLines parse L acc).2.2 = true then [(processLines parse L acc).2.1] else []) := by
  induction L with
  | nil => intro acc; simp [processLines, completeArgs]
  | cons line rest ih =>
    intro acc
    by_cases hp : dataMarker.isPrefixOf line = true
    · by_cases hd : line.drop 6 = doneSentinel
      · simp [processLines, hp, hd, completeArgs]
      · rcases hparse : parse (String.mk (line.drop 6)) with _ | parsed
        · simpa [processLines, hp, hd, hparse] using ih acc
        · rcases hex : extractDelta parsed with _ | content
          · simpa [processLines, hp, hd, hparse, hex] using ih acc
          · simpa [processLines, hp, hd, hparse, hex, completeArgs] using ih (acc ++ content)
    · simpa [processLines, hp] using ih acc

theorem processLines_last (parse : String → Option Json) (L : List (List Char)) :
    ∀ acc, (processLines parse L acc).2.2 = true →
      (processLines parse L acc).1.getLast?
        = some (.complete (processLines parse L acc).2.1) := by
  induction L with
  | nil => intro acc h; simp [processLines] at h
  | cons line rest ih =>
    intro acc h
    by_cases hp : dataMarker.isPrefixOf line = true
    · by_cases hd : line.drop 6 = doneSentinel
      · simp [processLines, hp, hd]
      · rcases hparse : parse (String.mk (line.drop 6)) with _ | parsed
        · simp only [processLines, hp, if_true, ite_true, hd, ite_false, if_false, hparse] at h ⊢
          exact ih acc (by simpa using h)
        · rcases hex : extractDelta parsed with _ | content
          · simp only [processLines, hp, if_true, ite_true, hd, ite_false, if_false,
              hparse, hex] at h ⊢
            exact ih acc (by simpa using h)
          · simp only [processLines, hp, if_true, ite_true, hd, ite_false, if_false,
              hparse, hex] at h ⊢
            have hrec := ih (acc ++ content) (by simpa using h)
            exact Option.mem_def.mp
              (List.mem_getLast?_cons (Option.mem_def.mpr hrec))
    · simp only [processLines, hp, if_false, ite_false, Bool.false_eq_true] at h ⊢
      exact ih acc h

theorem deltaFrags_append (a b : List Ev) :
    deltaFrags (a ++ b) = deltaFrags a ++ deltaFrags b :=
  List.filterMap_append ..

theorem completeArgs_append (a b : List Ev) :
    completeArgs (a ++ b) = completeArgs a ++ completeArgs b :=
  List.filterMap_append ..

theorem processChunks_ret (parse : String → Option Json) (cs : List String) :
    ∀ acc, (processChunks parse cs acc).2.1
      = acc ++ strConcat (deltaFrags (processChunks parse cs acc).1) := by
  induction cs with
  | nil => intro acc; simp [processChunks, deltaFrags, strConcat]
  | cons c rest ih =>
    intro acc
    rw [processChunks]
    by_cases hf : (processLines parse (linesOfChunk c) acc).2.2 = true
    · rw [if_pos hf]
      exact processLines_ret parse (linesOfChunk c) acc
    · rw [if_neg hf]
      have h1 := processLines_ret parse (linesOfChunk c) acc
      have h2 := ih (processLines parse (linesOfChunk c) acc).2.1
      show (processChunks parse rest (processLines parse (linesOfChunk c) acc).2.1).2.1
        = acc ++ strConcat (deltaFrags ((processLines parse (linesOfChunk c) acc).1 ++
            (processChunks parse rest (processLines parse (linesOfChunk c) acc).2.1).1))
      rw [deltaFrags_append, strConcat_append, h2, h1, String.append_assoc]

theorem processChunks_fin (parse : String → Option Json) (cs : List String) :
    ∀ acc, (processChunks parse cs acc).2.2 = doneInChunks cs := by
  induction cs with
  | nil => intro acc; simp [processChunks, doneInChunks]
  | cons c rest ih =>
    intro acc
    rw [processChunks]
    have hl := processLines_fin parse (linesOfChunk c) acc
    by_cases hf : (processLines parse (linesOfChunk c) acc).2.2 = true
    · rw [if_pos hf, hf]
      rw [hf] at hl
      simp [doneInChunks, ← hl]
    · rw [if_neg hf]
      have hff : (processLines parse (linesOfChunk c) acc).2.2 = false :=
        Bool.eq_false_iff.mpr hf
      have hlf : doneInLines (linesOfChunk c) = false := by rw [← hl]; exact hff
      show (processChunks parse rest (processLines parse (linesOfChunk c) acc).2.1).2.2
        = doneInChunks (c :: rest)
      rw [ih]
      simp [doneInChunks, hlf]

theorem processChunks_completes (parse : String → Option Json) (cs : List String) :
    ∀ acc, completeArgs (processChunks parse cs acc).1
      = (if (processChunks parse cs acc).2.2 = true
          then [(processChunks parse cs acc).2.1] else []) := by
  induction cs with
  | nil => intro acc; simp [processChunks, completeArgs]
  | cons c rest ih =>
    intro acc
    rw [processChunks]
    by_cases hf : (processLines parse (linesOfChunk c) acc).2.2 = true
    · rw [if_pos hf]
      rw [processLines_completes parse (linesOfChunk c) acc, hf]
    · rw [if_neg hf]
      have hff : (processLines parse (linesOfChunk c) acc).2.2 = false :=
        Bool.eq_false_iff.mpr hf
      have h1 := processLines_completes parse (linesOfChunk c) acc
      rw [hff] at h1
      simp only [Bool.false_eq_true, if_false] at h1
      show completeArgs ((processLines parse (linesOfChunk c) acc).1 ++
          (processChunks parse rest (processLines parse (linesOfChunk c) acc).2.1).1) = _
      rw [completeArgs_append, h1, ih]
      rfl

theorem processChunks_last (parse : String → Option Json) (cs : List String) :
    ∀ acc, (processChunks parse cs acc).2.2 = true →
      (processChunks parse cs acc).1.getLast?
        = some (.complete (processChunks parse cs acc).2.1) := by
  induction cs with
  | nil => intro acc h; simp [processChunks] at h
  | cons c rest ih =>
    intro acc
    rw [processChunks]
    by_cases hf : (processLines parse (linesOfChunk c) acc).2.2 = true
    · rw [if_pos hf]
      intro _
      exact processLines_last parse (linesOfChunk c) acc hf
    · rw [if_neg hf]
      intro h
      have hrec := ih (processLines parse (linesOfChunk c) acc).2.1 h
      exact Option.mem_def.mp
        (List.mem_getLast?_append_of_mem_getLast? (Option.mem_def.mpr hrec))

/-- C1: for ok responses whose stream contains a `data: [DONE]` frame,
`callChatAPI` completes: the string handed to `onStreamComplete` (invoked
exactly once, as the last callback) equals the concatenation of all
`onStreamChunk` fragments in arrival order, and equals the returned value. -/
theorem callChatAPI_done_spec (parse : String → Option Json) (resp : HttpResponse)
    (hok : resp.ok = true) (hdone : doneInChunks resp.chunks = true) :
    ∃ evs final, callChatAPI parse resp = (evs, .ok final) ∧
      strConcat (deltaFrags evs) = final ∧
      completeArgs evs = [final] ∧
      evs.getLast? = some (.complete final) := by
  have hfin : (processChunks parse resp.chunks "").2.2 = true := by
    rw [processChunks_fin]; exact hdone
  refine ⟨(processChunks parse resp.chunks "").1, (processChunks parse resp.chunks "").2.1,
    ?_, ?_, ?_, ?_⟩
  · unfold callChatAPI
    rw [if_pos hok]
  · have := processChunks_ret parse resp.chunks ""
    rw [this]
    exact (String.empty_append _).symm ▸ rfl
  · rw [processChunks_completes parse resp.chunks "", hfin]
    simp
  · exact processChunks_last parse resp.chunks "" hfin

/-- C2 (amended): when the transport ends without a `[DONE]` frame,
`callChatAPI` still returns the accumulated text as an ordinary (non-error)
result — but `onStreamComplete` is never invoked in that run. -/
theorem callChatAPI_transport_end (parse : String → Option Json) (resp : HttpResponse)
    (hok : resp.ok = true) (hnd : doneInChunks resp.chunks = false) :
    ∃ evs final, callChatAPI parse resp = (evs, .ok final) ∧
      strConcat (deltaFrags evs) = final ∧
      completeArgs evs = [] := by
  have hfin : (processChunks parse resp.chunks "").2.2 = false := by
    rw [processChunks_fin]; exact hnd
  refine ⟨(processChunks parse resp.chunks "").1, (processChunks parse resp.chunks "").2.1,
    ?_, ?_, ?_⟩
  · unfold callChatAPI
    rw [if_pos hok]
  · have := processChunks_ret parse resp.chunks ""
    rw [this]
    exact (String.empty_append _).symm ▸ rfl
  · rw [processChunks_completes parse resp.chunks "", hfin]
    simp

/-- C4: a non-success HTTP status makes `callChatAPI` fail with an error
carrying the status and the body text, with no callback ever invoked. -/
theorem callChatAPI_http_error (parse : String → Option Json) (resp : HttpResponse)
    (hok : resp.ok = false) :
    callChatAPI parse resp =
      ([], .error ("API请求失败 (" ++ toString resp.status ++ "): " ++ resp.bodyText)) := by
  unfold callChatAPI
  rw [hok]
  rfl

/-- Witness for C4: Scenario D, status 500 with body `"server error"`. -/
theorem callChatAPI_http_error_witness :
    callChatAPI (fun _ => none) ⟨500, "server error", []⟩ =
      ([], .error "API请求失败 (500): server error") :=
  (callChatAPI_http_error (fun _ => none) ⟨500, "server error", []⟩ rfl).trans rfl

/-- A concrete stand-in for `JSON.parse`, defined on the two delta frames of
Scenario A and undefined (throwing) elsewhere. -/
def demoParse : String → Option Json := fun s =>
  if s = "\x7b\"choices\":[\x7b\"delta\":\x7b\"content\":\"Hi\"\x7d\x7d]\x7d" then
    some (.obj [("choices", .arr [.obj [("delta", .obj [("content", .str "Hi")])]])])
  else if s = "\x7b\"choices\":[\x7b\"delta\":\x7b\"content\":\" there\"\x7d\x7d]\x7d" then
    some (.obj [("choices", .arr [.obj [("delta", .obj [("content", .str " there")])]])])
  else none

/-- The Scenario A response: two delta frames followed by `data: [DONE]`. -/
def demoResp : HttpResponse :=
  { status := 200, bodyText := ""
    chunks := ["data: \x7b\"choices\":[\x7b\"delta\":\x7b\"content\":\"Hi\"\x7d\x7d]\x7d\n\n",
               "data: \x7b\"choices\":[\x7b\"delta\":\x7b\"content\":\" there\"\x7d\x7d]\x7d\n\ndata: [DONE]\n\n"] }

/-- Witness for C1 on Scenario A. -/
theorem callChatAPI_done_spec_witness :
    ∃ evs final, callChatAPI demoParse demoResp = (evs, .ok final) ∧
      strConcat (deltaFrags evs) = final ∧
      completeArgs evs = [final] ∧
      evs.getLast? = some (.complete final) :=
  callChatAPI_done_spec demoParse demoResp rfl rfl

/-- Counterexample to C2 as stated: an ok stream that ends without `[DONE]`
after one delta; the completion callback is invoked zero times, not once. -/
theorem callChatAPI_transport_end_counterexample :
    callChatAPI demoParse
        ⟨200, "", ["data: \x7b\"choices\":[\x7b\"delta\":\x7b\"content\":\"Hi\"\x7d\x7d]\x7d\n"]⟩
      = ([Ev.delta "Hi" "Hi"], .ok "Hi") ∧
    completeArgs [Ev.delta "Hi" "Hi"] = [] ∧
    ([Ev.delta "Hi" "Hi"] : List Ev).countP (fun e =>
        match e with | .complete _ => true | _ => false) = 0 :=
  ⟨rfl, rfl, rfl⟩

/-- Witness for the amended C2 on the same `[DONE]`-less stream. -/
theorem callChatAPI_transport_end_witness :
    ∃ evs final, callChatAPI demoParse
        ⟨200, "", ["data: \x7b\"choices\":[\x7b\"delta\":\x7b\"content\":\"Hi\"\x7d\x7d]\x7d\n"]⟩
      = (evs, .ok final) ∧
      strConcat (deltaFrags evs) = final ∧
      completeArgs evs = [] :=
  callChatAPI_transport_end demoParse
    ⟨200, "", ["data: \x7b\"choices\":[\x7b\"delta\":\x7b\"content\":\"Hi\"\x7d\x7d]\x7d\n"]⟩ rfl rfl

/-- A malformed data frame: the `data: ` marker is present, the payload is not
the sentinel, and `JSON.parse` throws on it. -/
def MalformedFrame (parse : String → Option Json) (line : List Char) : Prop :=
  dataMarker.isPrefixOf line = true ∧ line.drop 6 ≠ doneSentinel ∧
    parse (String.mk (line.drop 6)) = none

theorem processLines_skips_malformed (parse : String → Option Json) (mal : List Char)
    (h : MalformedFrame parse mal) (pre : List (List Char)) :
    ∀ (post : List (List Char)) (acc : String),
    processLines parse (pre ++ mal :: post) acc = processLines parse (pre ++ post) acc := by
  obtain ⟨hp, hd, hparse⟩ := h
  induction pre with
  | nil =>
    intro post acc
    simp [processLines, hp, hd, hparse]
  | cons p pre' ih =>
    intro post acc
    simp only [List.cons_append, processLines]
    by_cases hp2 : dataMarker.isPrefixOf p = true
    · by_cases hd2 : p.drop 6 = doneSentinel
      · simp [hp2, hd2]
      · rcases hparse2 : parse (String.mk (p.drop 6)) with _ | parsed
        · simp [hp2, hd2, hparse2, ih]
        · rcases hex2 : extractDelta parsed with _ | content
          · simp [hp2, hd2, hparse2, hex2, ih]
          · simp [hp2, hd2, hparse2, hex2, ih]
    · simp [hp2, ih]

theorem processChunks_congr_chunk (parse : String → Option Json) (c1 c2 : String)
    (hsame : ∀ acc, processLines parse (linesOfChunk c1) acc
      = processLines parse (linesOfChunk c2) acc) (cpre : List String) :
    ∀ (cpost : List String) (acc : String),
    processChunks parse (cpre ++ c1 :: cpost) acc
      = processChunks parse (cpre ++ c2 :: cpost) acc := by
  induction cpre with
  | nil =>
    intro cpost acc
    simp only [List.nil_append, processChunks]
    rw [hsame acc]
  | cons c cpre' ih =>
    intro cpost acc
    simp only [List.cons_append, processChunks]
    by_cases hf : (processLines parse (linesOfChunk c) acc).2.2 = true
    · rw [if_pos hf, if_pos hf]
    · rw [if_neg hf, if_neg hf]
      simp only [List.append_eq]
      rw [ih]

/-- C5: a malformed (unparsable) `data:` frame sandwiched anywhere in the
stream contributes nothing and aborts nothing: `callChatAPI` behaves exactly
as if the frame were absent, so every later valid frame is still appended
and dispatched and the final text is the concatenation from valid frames
only. -/
theorem callChatAPI_skips_malformed (parse : String → Option Json)
    (status : ℕ) (body : String) (cpre cpost : List String) (c1 c2 : String)
    (pre post : List (List Char)) (mal : List Char)
    (h : MalformedFrame parse mal)
    (h1 : linesOfChunk c1 = pre ++ mal :: post)
    (h2 : linesOfChunk c2 = pre ++ post) :
    callChatAPI parse ⟨status, body, cpre ++ c1 :: cpost⟩ =
      callChatAPI parse ⟨status, body, cpre ++ c2 :: cpost⟩ := by
  unfold callChatAPI
  have hok : HttpResponse.ok ⟨status, body, cpre ++ c1 :: cpost⟩
      = HttpResponse.ok ⟨status, body, cpre ++ c2 :: cpost⟩ := rfl
  by_cases ho : HttpResponse.ok ⟨status, body, cpre ++ c1 :: cpost⟩ = true
  · rw [if_pos ho, if_pos (hok ▸ ho)]
    have hsame : ∀ acc, processLines parse (linesOfChunk c1) acc
        = processLines parse (linesOfChunk c2) acc := by
      intro acc
      rw [h1, h2]
      exact processLines_skips_malformed parse mal h pre post acc
    rw [processChunks_congr_chunk parse c1 c2 hsame cpre cpost ""]
  · rw [if_neg ho, if_neg (hok ▸ ho)]

/-- Witness for C5: Scenario C, `data: {causes_parse_error` sandwiched between
the two Scenario A frames; the run equals the run without it. -/
theorem callChatAPI_skips_malformed_witness :
    callChatAPI demoParse ⟨200, "",
        ["data: \x7b\"choices\":[\x7b\"delta\":\x7b\"content\":\"Hi\"\x7d\x7d]\x7d\ndata: \x7bnot json\ndata: \x7b\"choices\":[\x7b\"delta\":\x7b\"content\":\" there\"\x7d\x7d]\x7d",
         "data: [DONE]"]⟩ =
      callChatAPI demoParse ⟨200, "",
        ["data: \x7b\"choices\":[\x7b\"delta\":\x7b\"content\":\"Hi\"\x7d\x7d]\x7d\ndata: \x7b\"choices\":[\x7b\"delta\":\x7b\"content\":\" there\"\x7d\x7d]\x7d",
         "data: [DONE]"]⟩ :=
  callChatAPI_skips_malformed demoParse 200 "" [] ["data: [DONE]"]
    "data: \x7b\"choices\":[\x7b\"delta\":\x7b\"content\":\"Hi\"\x7d\x7d]\x7d\ndata: \x7bnot json\ndata: \x7b\"choices\":[\x7b\"delta\":\x7b\"content\":\" there\"\x7d\x7d]\x7d"
    "data: \x7b\"choices\":[\x7b\"delta\":\x7b\"content\":\"Hi\"\x7d\x7d]\x7d\ndata: \x7b\"choices\":[\x7b\"delta\":\x7b\"content\":\" there\"\x7d\x7d]\x7d"
    ["data: \x7b\"choices\":[\x7b\"delta\":\x7b\"content\":\"Hi\"\x7d\x7d]\x7d".data]
    ["data: \x7b\"choices\":[\x7b\"delta\":\x7b\"content\":\" there\"\x7d\x7d]\x7d".data]
    "data: \x7bnot json".data
    ⟨rfl, by decide, rfl⟩ rfl rfl

/-! ## Markdown renderer (`renderMarkdown`, content-script.js:1403-1437)

Each `.replace(regex, template)` pass of the chain is embedded as a scanner
over the character list with the exact JS regex semantics of the pattern
used there (lazy `(.*?)`, per-line `^...$` under the `m` flag, greedy `\s*`
with backtracking, first-match character classes `[^x]+`), and the template
strings are copied verbatim from the source. -/

/-- One global `String.replace` of a single character by a string (the three
escape passes). -/
def replaceChar (c : Char) (r : List Char) : List Char → List Char
  | [] => []
  | x :: xs => (if x = c then r else [x]) ++ replaceChar c r xs

/-- The `.replace(/&/g,'&amp;').replace(/</g,'&lt;').replace(/>/g,'&gt;')`, in
source order. -/
def escapeHtml (l : List Char) : List Char :=
  replaceChar '>' "&gt;".data (replaceChar '<' "&lt;".data (replaceChar '&' "&amp;".data l))

/-- The `Array.prototype.join('\n')` over split pieces. -/
def joinNl : List (List Char) → List Char
  | [] => []
  | [x] => x
  | x :: xs => x ++ '\n' :: joinNl xs

/-- One heading pass `^<marker> (.*$)` with flags `gim`: per line, a line
starting with the marker is wrapped in the heading template. -/
def headingPass (marker pre post : List Char) (l : List Char) : List Char :=
  joinNl ((splitNl l).map (fun line =>
    if marker.isPrefixOf line then pre ++ line.drop marker.length ++ post else line))

def h4Pre : List Char :=
  "<h4 style=\"font-size: 14px; margin: 12px 0 6px 0; color: #2d9ab7; font-weight: 600; font-style: italic; border-left: 3px solid #49bccf; padding-left: 8px;\">".data
def h4Post : List Char := "</h4>".data
def h3Pre : List Char :=
  "<h3 style=\"font-size: 16px; margin: 16px 0 8px 0; color: #2d9ab7; font-weight: 700; border-bottom: 2px solid #e8f8fa; padding-bottom: 4px;\">".data
def h3Post : List Char := "</h3>".data
def h2Pre : List Char :=
  "<h2 style=\"font-size: 18px; margin: 20px 0 12px 0; color: #2d9ab7; font-weight: 700; background: linear-gradient(to right, #f0f8fa, transparent); padding: 8px 12px; border-radius: 4px;\">".data
def h2Post : List Char := "</h2>".data
def h1Pre : List Char :=
  "<h1 style=\"font-size: 20px; margin: 24px 0 16px 0; color: #2d9ab7; font-weight: 700; font-style: italic; text-align: center; padding: 12px; border-bottom: 3px solid #49bccf;\">".data
def h1Post : List Char := "</h1>".data
def strongPre : List Char := "<strong style=\"font-weight: 600; color: #2d9ab7;\">".data
def strongPost : List Char := "</strong>".data
def emPre : List Char := "<em style=\"font-style: italic; color: #3aa8c8;\">".data
def emPost : List Char := "</em>".data
def codePre : List Char :=
  "<code style=\"background: linear-gradient(135deg, #f0f8fa 0%, #e8f8fa 100%); padding: 3px 8px; border-radius: 4px; font-family: Monaco, monospace; font-size: 13px; color: #2d9ab7; border: 1px solid #49bccf;\">".data
def codePost : List Char := "</code>".data
def liPre : List Char :=
  "<li style=\"margin: 8px 0; padding-left: 8px; color: #333; position: relative;\"><span style=\"position: absolute; left: -12px; color: #49bccf;\">▶</span>".data
def liPost : List Char := "</li>".data
def aPre : List Char := "<a href=\"".data
def aMid : List Char :=
  "\" target=\"_blank\" style=\"color: #49bccf; text-decoration: none; border-bottom: 1px solid #49bccf; padding: 0 2px; transition: all 0.2s;\">".data
def aPost : List Char := "</a>".data
def pPre : List Char := "<p style=\"margin: 12px 0; line-height: 1.8; color: #333;\">".data
def pPost : List Char := "</p>".data

/-- The lazy close `(.*?)\*\*` of the bold pattern: the shortest prefix (in
which `.` never matches a newline) followed by `**`. -/
def findBoldClose : List Char → Option (List Char × List Char)
  | [] => none
  | c :: rest =>
    if c = '*' ∧ rest.head? = some '*' then some ([], rest.tail)
    else if c = '\n' then none
    else (findBoldClose rest).map (fun p => (c :: p.1, p.2))

/-- The lazy close `(.*?)\*` of the italic pattern. -/
def findItalicClose : List Char → Option (List Char × List Char)
  | [] => none
  | c :: rest =>
    if c = '*' then some ([], rest)
    else if c = '\n' then none
    else (findItalicClose rest).map (fun p => (c :: p.1, p.2))

/-- The close of `([^`]+)``: everything before the next backtick
(which, unlike `.`, may span newlines). -/
def findCodeClose : List Char → Option (List Char × List Char)
  | [] => none
  | c :: rest =>
    if c = '`' then some ([], rest)
    else (findCodeClose rest).map (fun p => (c :: p.1, p.2))

theorem findBoldClose_eq (l : List Char) :
    ∀ cap rest, findBoldClose l = some (cap, rest) → l = cap ++ '*' :: '*' :: rest := by
  induction l with
  | nil => intro cap rest h; simp [findBoldClose] at h
  | cons c l ih =>
    intro cap rest h
    rw [findBoldClose] at h
    by_cases hc : c = '*' ∧ l.head? = some '*'
    · rw [if_pos hc] at h
      obtain ⟨hcap, hrest⟩ := Prod.mk.injEq .. ▸ Option.some_inj.mp h
      obtain ⟨hc1, hc2⟩ := hc
      rcases l with _ | ⟨c2, l2⟩
      · simp at hc2
      · simp only [List.head?_cons, Option.some_inj] at hc2
        subst hc1; subst hc2
        simp only [List.tail_cons] at hrest
        rw [← hcap, ← hrest]
        rfl
    · rw [if_neg hc] at h
      by_cases hn : c = '\n'
      · rw [if_pos hn] at h; exact absurd h (by simp)
      · rw [if_neg hn] at h
        rcases hf : findBoldClose l with _ | ⟨cap', rest'⟩
        · rw [hf] at h; exact absurd h (by simp)
        · rw [hf] at h
          simp only [Option.map_some', Option.some_inj] at h
          obtain ⟨hcap, hrest⟩ := Prod.mk.injEq .. ▸ h
          rw [← hcap, ← hrest]
          simpa using congrArg (c :: ·) (ih cap' rest' hf)

theorem findItalicClose_eq (l : List Char) :
    ∀ cap rest, findItalicClose l = some (cap, rest) → l = cap ++ '*' :: rest := by
  induction l with
  | nil => intro cap rest h; simp [findItalicClose] at h
  | cons c l ih =>
    intro cap rest h
    rw [findItalicClose] at h
    by_cases hc : c = '*'
    · rw [if_pos hc] at h
      obtain ⟨hcap, hrest⟩ := Prod.mk.injEq .. ▸ Option.some_inj.mp h
      rw [← hcap, ← hrest, hc]
      rfl
    · rw [if_neg hc] at h
      by_cases hn : c = '\n'
      · rw [if_pos hn] at h; exact absurd h (by simp)
      · rw [if_neg hn] at h
        rcases hf : findItalicClose l with _ | ⟨cap', rest'⟩
        · rw [hf] at h; exact absurd h (by simp)
        · rw [hf] at h
          simp only [Option.map_some', Option.some_inj] at h
          obtain ⟨hcap, hrest⟩ := Prod.mk.injEq .. ▸ h
          rw [← hcap, ← hrest]
          simpa using congrArg (c :: ·) (ih cap' rest' hf)

theorem findCodeClose_eq (l : List Char) :
    ∀ cap rest, findCodeClose l = some (cap, rest) → l = cap ++ '`' :: rest := by
  induction l with
  | nil => intro cap rest h; simp [findCodeClose] at h
  | cons c l ih =>
    intro cap rest h
    rw [findCodeClose] at h
    by_cases hc : c = '`'
    · rw [if_pos hc] at h
      obtain ⟨hcap, hrest⟩ := Prod.mk.injEq .. ▸ Option.some_inj.mp h
      rw [← hcap, ← hrest, hc]
      rfl
    · rw [if_neg hc] at h
      rcases hf : findCodeClose l with _ | ⟨cap', rest'⟩
      · rw [hf] at h; exact absurd h (by simp)
      · rw [hf] at h
        simp only [Option.map_some', Option.some_inj] at h
        obtain ⟨hcap, hrest⟩ := Prod.mk.injEq .. ▸ h
        rw [← hcap, ← hrest]
        simpa using congrArg (c :: ·) (ih cap' rest' hf)

theorem findBoldClose_length (l : List Char) (cap rest : List Char)
    (h : findBoldClose l = some (cap, rest)) : rest.length < l.length := by
  have := congrArg List.length (findBoldClose_eq l cap rest h)
  simp [List.length_append] at this
  omega

theorem findItalicClose_length (l : List Char) (cap rest : List Char)
    (h : findItalicClose l = some (cap, rest)) : rest.length < l.length := by
  have := congrArg List.length (findItalicClose_eq l cap rest h)
  simp [List.length_append] at this
  omega

theorem findCodeClose_length (l : List Char) (cap rest : List Char)
    (h : findCodeClose l = some (cap, rest)) : rest.length < l.length := by
  have := congrArg List.length (findCodeClose_eq l cap rest h)
  simp [List.length_append] at this
  omega

theorem findBoldClose_tail_length (l : List Char) (cap rest : List Char)
    (h : findBoldClose l.tail = some (cap, rest)) : rest.length < l.length + 1 := by
  have h1 := findBoldClose_length l.tail cap rest h
  have h2 : l.tail.length ≤ l.length := by cases l <;> simp
  omega

/-- The `.replace(/\*\*(.*?)\*\*/g, '<strong ...>$1</strong>')`: the global,
left-to-right, lazy bold pass (on failure at a position the engine advances
one character). -/
def boldAux (l : List Char) : List Char :=
  match l with
  | [] => []
  | c :: rest =>
    if c = '*' ∧ rest.head? = some '*' then
      match hfc : findBoldClose rest.tail with
      | some (cap, rest') => strongPre ++ cap ++ strongPost ++ boldAux rest'
      | none => c :: boldAux rest
    else c :: boldAux rest
termination_by l.length
decreasing_by
  all_goals simp_wf
  all_goals first
    | exact findBoldClose_tail_length _ _ _ hfc
    | omega

/-- The `.replace(/\*(.*?)\*/g, '<em ...>$1</em>')`: the italic pass. -/
def italicAux (l : List Char) : List Char :=
  match l with
  | [] => []
  | c :: rest =>
    if c = '*' then
      match hfc : findItalicClose rest with
      | some (cap, rest') => emPre ++ cap ++ emPost ++ italicAux rest'
      | none => c :: italicAux rest
    else c :: italicAux rest
termination_by l.length
decreasing_by
  all_goals simp_wf
  all_goals first
    | exact Nat.lt_succ_of_lt (findItalicClose_length _ _ _ hfc)
    | omega

/-- The inline-code pass (capture `[^`]+` must be nonempty; on an empty
capture the match fails at this position and the engine advances one
character). -/
def codeAux (l : List Char) : List Char :=
  match l with
  | [] => []
  | c :: rest =>
    if c = '`' then
      match hfc : findCodeClose rest with
      | some ([], _) => c :: codeAux rest
      | some (c2 :: cap, rest') => codePre ++ c2 :: cap ++ codePost ++ codeAux rest'
      | none => c :: codeAux rest
    else c :: codeAux rest
termination_by l.length
decreasing_by
  all_goals simp_wf
  all_goals first
    | exact Nat.lt_succ_of_lt (findCodeClose_length _ _ _ hfc)
    | omega

/-- One attempt of `^\s*[-*+] (.*)$` at a `^` position: the maximal
whitespace run (greedy `\s*`, whose only viable backtrack is the maximal
one since markers are not whitespace), a marker, one space, then the rest
of the line as capture (`$` leaves the newline unconsumed). -/
def tryListMatch (l : List Char) : Option (List Char × List Char) :=
  match l.dropWhile jsWhitespace with
  | m :: c2 :: rest2 =>
    if (m = '-' ∨ m = '*' ∨ m = '+') ∧ c2 = ' ' then
      some (rest2.takeWhile (fun c => c ≠ '\n'), rest2.dropWhile (fun c => c ≠ '\n'))
    else none
  | _ => none

theorem tryListMatch_some (l : List Char) (cap rest : List Char)
    (h : tryListMatch l = some (cap, rest)) :
    ∃ m rest2, (m = '-' ∨ m = '*' ∨ m = '+') ∧
      l.dropWhile jsWhitespace = m :: ' ' :: rest2 ∧
      cap = rest2.takeWhile (fun c => c ≠ '\n') ∧
      rest = rest2.dropWhile (fun c => c ≠ '\n') := by
  unfold tryListMatch at h
  rcases hd : l.dropWhile jsWhitespace with _ | ⟨m, l2⟩
  · rw [hd] at h; exact absurd h (by simp)
  · rcases l2 with _ | ⟨c2, rest2⟩
    · rw [hd] at h; exact absurd h (by simp)
    · rw [hd] at h
      dsimp only at h
      by_cases hc : (m = '-' ∨ m = '*' ∨ m = '+') ∧ c2 = ' '
      · rw [if_pos hc] at h
        obtain ⟨hcap, hrest⟩ := Prod.mk.injEq .. ▸ Option.some_inj.mp h
        exact ⟨m, rest2, hc.1, by rw [hc.2], hcap.symm, hrest.symm⟩
      · simp only [if_neg hc] at h
        exact Option.noConfusion h

theorem tryListMatch_length (l : List Char) (cap rest : List Char)
    (h : tryListMatch l = some (cap, rest)) : rest.length < l.length := by
  obtain ⟨m, rest2, _, hd, _, hrest⟩ := tryListMatch_some l cap rest h
  have hlen : (l.dropWhile jsWhitespace).length ≤ l.length :=
    (List.dropWhile_sublist _).length_le
  rw [hd] at hlen
  have hlen2 : rest.length ≤ rest2.length := by
    rw [hrest]; exact (List.dropWhile_sublist _).length_le
  simp only [List.length_cons] at hlen
  omega

/-- The `.replace(/^\s*[-*+] (.*)$/gim, '<li ...>...$1</li>')`: the list-item
pass; `atStart` records whether the current position is start-of-input or
just after a newline (a `^` position under the `m` flag). -/
def listAux (atStart : Bool) (l : List Char) : List Char :=
  match l with
  | [] => []
  | c :: rest =>
    if atStart then
      match hm : tryListMatch (c :: rest) with
      | some (cap, rest') => liPre ++ cap ++ liPost ++ listAux false rest'
      | none => c :: listAux (c = '\n') rest
    else c :: listAux (c = '\n') rest
termination_by l.length
decreasing_by
  all_goals simp_wf
  all_goals first
    | exact tryListMatch_length _ _ _ hm
    | omega

/-- The first occurrence of `d`: `l = pre ++ d :: post` with `pre` free of
`d` (the deterministic reading of `[^x]+` up to its closing literal). -/
def splitAtChar (d : Char) : List Char → Option (List Char × List Char)
  | [] => none
  | c :: rest =>
    if c = d then some ([], rest)
    else (splitAtChar d rest).map (fun p => (c :: p.1, p.2))

theorem splitAtChar_eq (d : Char) (l : List Char) :
    ∀ pre post, splitAtChar d l = some (pre, post) → l = pre ++ d :: post := by
  induction l with
  | nil => intro pre post h; simp [splitAtChar] at h
  | cons c l ih =>
    intro pre post h
    rw [splitAtChar] at h
    by_cases hc : c = d
    · rw [if_pos hc] at h
      obtain ⟨hpre, hpost⟩ := Prod.mk.injEq .. ▸ Option.some_inj.mp h
      rw [← hpre, ← hpost, hc]
      rfl
    · rw [if_neg hc] at h
      rcases hf : splitAtChar d l with _ | ⟨pre', post'⟩
      · rw [hf] at h; exact absurd h (by simp)
      · rw [hf] at h
        simp only [Option.map_some', Option.some_inj] at h
        obtain ⟨hpre, hpost⟩ := Prod.mk.injEq .. ▸ h
        rw [← hpre, ← hpost]
        simpa using congrArg (c :: ·) (ih pre' post' hf)

/-- One attempt of `\[([^\]]+)\]\(([^)]+)\)` just after a `[`: the text up
to the first `]`, an immediate `(`, and the url up to the first `)`; both
captures nonempty. -/
def tryLink (rest : List Char) : Option (List Char × List Char × List Char) :=
  match splitAtChar ']' rest with
  | none => none
  | some (txt, r2) =>
    if txt.isEmpty then none
    else
      match r2 with
      | c :: r3 =>
        if c = '(' then
          match splitAtChar ')' r3 with
          | none => none
          | some (url, r4) => if url.isEmpty then none else some (txt, url, r4)
        else none
      | [] => none

theorem tryLink_some (rest : List Char) (txt url r4 : List Char)
    (h : tryLink rest = some (txt, url, r4)) :
    rest = txt ++ ']' :: '(' :: url ++ ')' :: r4 ∧ txt ≠ [] ∧ url ≠ [] := by
  unfold tryLink at h
  rcases h1 : splitAtChar ']' rest with _ | ⟨txt', r2⟩
  · rw [h1] at h; exact absurd h (by simp)
  · rw [h1] at h
    dsimp only at h
    by_cases he : txt'.isEmpty
    · rw [if_pos he] at h; exact absurd h (by simp)
    · rw [if_neg he] at h
      rcases r2 with _ | ⟨c, r3⟩
      · exact absurd h (by simp)
      · dsimp only at h
        by_cases hc : c = '('
        · rw [if_pos hc] at h
          rcases h2 : splitAtChar ')' r3 with _ | ⟨url', r4'⟩
          · rw [h2] at h; exact absurd h (by simp)
          · rw [h2] at h
            dsimp only at h
            by_cases hu : url'.isEmpty
            · rw [if_pos hu] at h; exact absurd h (by simp)
            · rw [if_neg hu] at h
              simp only [Option.some_inj, Prod.mk.injEq] at h
              obtain ⟨ht, hu2, hr⟩ := h
              have e1 := splitAtChar_eq ']' rest txt' (c :: r3) h1
              have e2 := splitAtChar_eq ')' r3 url' r4' h2
              subst ht; subst hu2; subst hr; subst hc
              refine ⟨by rw [e1, e2]; simp, ?_, ?_⟩
              · intro hnil; rw [hnil] at he; exact he rfl
              · intro hnil; rw [hnil] at hu; exact hu rfl
        · rw [if_neg hc] at h; exact absurd h (by simp)

theorem tryLink_length (rest : List Char) (txt url r4 : List Char)
    (h : tryLink rest = some (txt, url, r4)) : r4.length < rest.length := by
  have := congrArg List.length (tryLink_some rest txt url r4 h).1
  simp [List.length_append] at this
  omega

/-- The `.replace(/\[([^\]]+)\]\(([^)]+)\)/g, '<a href="$2" ...>$1</a>')`: the
link pass. -/
def linkAux (l : List Char) : List Char :=
  match l with
  | [] => []
  | c :: rest =>
    if c = '[' then
      match hm : tryLink rest with
      | some (txt, url, rest') => aPre ++ url ++ aMid ++ txt ++ aPost ++ linkAux rest'
      | none => c :: linkAux rest
    else c :: linkAux rest
termination_by l.length
decreasing_by
  all_goals simp_wf
  all_goals first
    | exact Nat.lt_succ_of_lt (tryLink_length _ _ _ _ hm)
    | omega

theorem list_tail_length_le (t : List Char) : t.tail.length ≤ t.length := by
  cases t <;> simp

/-- The `split('\n\n')`: the paragraph split (non-overlapping, left to right). -/
def splitPara (l : List Char) : List (List Char) :=
  match l with
  | [] => [[]]
  | c :: rest =>
    if c = '\n' ∧ rest.head? = some '\n' then [] :: splitPara rest.tail
    else
      match splitPara rest with
      | h :: t => (c :: h) :: t
      | [] => [[c]]
termination_by l.length
decreasing_by
  all_goals simp_wf
  all_goals first
    | exact Nat.lt_succ_of_le (list_tail_length_le _)
    | omega

/-- The paragraph pass: every double-newline block that has visible content
(`trim()` nonempty) and no `<` yet is wrapped in a `<p>` element; blocks are
re-joined with single newlines. -/
def paraPass (l : List Char) : List Char :=
  joinNl ((splitPara l).map (fun p =>
    if lineNonBlank p && !(p.contains '<') then pPre ++ p ++ pPost else p))

/-- The fixed chain of markdown passes, in source order: headings h4..h1,
bold, italic, inline code, list items, links, paragraphs. -/
def markdownPasses (l : List Char) : List Char :=
  paraPass (linkAux (listAux true (codeAux (italicAux (boldAux
    (headingPass "# ".data h1Pre h1Post
      (headingPass "## ".data h2Pre h2Post
        (headingPass "### ".data h3Pre h3Post
          (headingPass "#### ".data h4Pre h4Post l)))))))))

/-- The `renderMarkdown(markdownText)`: empty (falsy) input yields `''`;
otherwise HTML-escape `&`, `<`, `>` first and then apply the markdown
transformation chain. -/
def renderMarkdown (s : String) : String :=
  if s = "" then "" else String.mk (markdownPasses (escapeHtml s.data))

/-! ## The `<`-shape invariant

Every `<` in a renderer intermediate string is the start of one of the
fixed template tags, so it is followed by one of `h s e c l a p /`, and a
`<s` (only from `<strong`/`<span`) is followed by `t` or `p`.  The
predicate also forbids a trailing `<` or `<s`, which makes it closed under
concatenation; `<script` can never occur in a string satisfying it. -/

/-- The characters that may follow a `<` in renderer output. -/
def goodAfterLt (c : Char) : Bool :=
  c = 'h' || c = 's' || c = 'e' || c = 'c' || c = 'l' || c = 'a' || c = 'p' || c = '/'

/-- Every `<` is followed by a good character, and every `<s` by `t` or
`p` (so in particular the string ends in neither `<` nor `<s`). -/
def okLt : List Char → Bool
  | [] => true
  | c :: rest =>
    if c = '<' then
      match rest with
      | [] => false
      | c2 :: rest2 =>
        goodAfterLt c2 &&
        (if c2 = 's' then
          (match rest2 with | d :: _ => d = 't' || d = 'p' | [] => false)
         else true) &&
        okLt rest
    else okLt rest

theorem goodAfterLt_spec (c : Char) (h : goodAfterLt c = true) :
    c = 'h' ∨ c = 's' ∨ c = 'e' ∨ c = 'c' ∨ c = 'l' ∨ c = 'a' ∨ c = 'p' ∨ c = '/' := by
  have := h
  simp only [goodAfterLt, Bool.or_eq_true, decide_eq_true_eq] at this
  tauto

theorem okLt_cons (c : Char) (r : List Char) :
    okLt (c :: r) =
      (if c = '<' then
        (match r with
         | [] => false
         | c2 :: rest2 =>
           goodAfterLt c2 &&
           (if c2 = 's' then
             (match rest2 with | d :: _ => d = 't' || d = 'p' | [] => false)
            else true) &&
           okLt r)
       else okLt r) := by
  rw [okLt.eq_def]

theorem okLt_cons_ne (c : Char) (r : List Char) (h : c ≠ '<') :
    okLt (c :: r) = okLt r := by
  rw [okLt_cons, if_neg h]

theorem okLt_tail (c : Char) (r : List Char) (h : okLt (c :: r) = true) :
    okLt r = true := by
  by_cases hc : c = '<'
  · rw [okLt_cons, if_pos hc] at h
    rcases r with _ | ⟨c2, r2⟩
    · exact absurd h (by simp)
    · simp only [Bool.and_eq_true] at h
      exact h.2
  · rw [okLt_cons_ne c r hc] at h
    exact h

theorem okLt_lt_cons (c2 : Char) (r2 : List Char) (h : okLt ('<' :: c2 :: r2) = true) :
    goodAfterLt c2 = true ∧
    (c2 = 's' → ∃ d r3, r2 = d :: r3 ∧ (d = 't' ∨ d = 'p')) ∧
    okLt (c2 :: r2) = true := by
  rw [okLt_cons, if_pos rfl] at h
  simp only [Bool.and_eq_true] at h
  refine ⟨h.1.1, ?_, h.2⟩
  intro hs
  have h2 := h.1.2
  rw [if_pos hs] at h2
  rcases r2 with _ | ⟨d, r3⟩
  · exact absurd h2 (by simp)
  · exact ⟨d, r3, rfl, by simpa [decide_eq_true_eq] using h2⟩

theorem okLt_lt_build (c2 : Char) (r2 : List Char)
    (hg : goodAfterLt c2 = true)
    (hs : c2 = 's' → ∃ d r3, r2 = d :: r3 ∧ (d = 't' ∨ d = 'p'))
    (hr : okLt (c2 :: r2) = true) :
    okLt ('<' :: c2 :: r2) = true := by
  rw [okLt_cons, if_pos rfl]
  simp only [Bool.and_eq_true]
  refine ⟨⟨hg, ?_⟩, hr⟩
  by_cases hc2 : c2 = 's'
  · rw [if_pos hc2]
    obtain ⟨d, r3, hr2, hd⟩ := hs hc2
    rw [hr2]
    rcases hd with hd | hd <;> simp [hd]
  · rw [if_neg hc2]

theorem okLt_append (a b : List Char) (ha : okLt a = true) (hb : okLt b = true) :
    okLt (a ++ b) = true := by
  induction a with
  | nil => simpa using hb
  | cons c a' ih =>
    by_cases hc : c = '<'
    · subst hc
      rcases a' with _ | ⟨c2, a''⟩
      · exact absurd ha (by decide)
      · obtain ⟨hg, hs, hr⟩ := okLt_lt_cons c2 a'' ha
        have hih := ih hr
        rw [List.cons_append, List.cons_append]
        refine okLt_lt_build c2 (a'' ++ b) hg ?_ (by simpa using hih)
        intro hc2
        obtain ⟨d, r3, ha'', hd⟩ := hs hc2
        exact ⟨d, r3 ++ b, by rw [ha'']; rfl, hd⟩
    · rw [List.cons_append, okLt_cons_ne c _ hc]
      exact ih (by rw [okLt_cons_ne c a' hc] at ha; exact ha)

theorem okLt_suffix (a b : List Char) (h : okLt (a ++ b) = true) : okLt b = true := by
  induction a with
  | nil => simpa using h
  | cons c a' ih =>
    rw [List.cons_append] at h
    exact ih (okLt_tail _ _ h)

/-- A cut whose following character is not a legal `<`-successor cannot fall
inside a tag, so the prefix still satisfies the invariant. -/
theorem okLt_prefix_cut (b c : List Char) (h : okLt (b ++ c) = true)
    (hc : c = [] ∨ ∃ d r, c = d :: r ∧ goodAfterLt d = false ∧ d ≠ 't' ∧ d ≠ 'p') :
    okLt b = true := by
  induction b with
  | nil => rfl
  | cons x b' ih =>
    by_cases hx : x = '<'
    · subst hx
      rcases b' with _ | ⟨c2, b''⟩
      · rw [List.cons_append, List.nil_append] at h
        rcases hc with hnil | ⟨d, r, hdr, hgd, _, _⟩
        · subst hnil; exact absurd h (by decide)
        · subst hdr
          obtain ⟨hg, _, _⟩ := okLt_lt_cons d r h
          exact absurd hg (by simp [hgd])
      · rw [List.cons_append, List.cons_append] at h
        obtain ⟨hg, hs, hr⟩ := okLt_lt_cons c2 (b'' ++ c) h
        refine okLt_lt_build c2 b'' hg ?_ (ih hr)
        intro hc2
        obtain ⟨d, r3, hb'', hd⟩ := hs hc2
        rcases b'' with _ | ⟨d', b'''⟩
        · rcases hc with hnil | ⟨e, r, hdr, hge, het, hep⟩
          · subst hnil; exact absurd hb'' (by simp)
          · rw [List.nil_append, hdr] at hb''
            obtain ⟨hde, _⟩ := List.cons.injEq .. ▸ hb''
            rcases hd with hd | hd
            · exact absurd (hde ▸ hd) het
            · exact absurd (hde ▸ hd) hep
        · rw [List.cons_append] at hb''
          obtain ⟨hdd, _⟩ := List.cons.injEq .. ▸ hb''
          exact ⟨d', b''', rfl, hdd ▸ hd⟩
    · rw [List.cons_append, okLt_cons_ne x _ hx] at h
      rw [okLt_cons_ne x b' hx]
      exact ih h

theorem okLt_of_no_lt (l : List Char) (h : ∀ c ∈ l, c ≠ '<') : okLt l = true := by
  induction l with
  | nil => rfl
  | cons c l' ih =>
    rw [okLt_cons_ne c l' (h c (List.mem_cons_self ..))]
    exact ih (fun x hx => h x (List.mem_cons_of_mem _ hx))

theorem okLt_no_script (l : List Char) (h : okLt l = true) :
    ∀ a b : List Char, l ≠ a ++ '<' :: 's' :: 'c' :: b := by
  intro a
  induction a generalizing l with
  | nil =>
    intro b heq
    rw [heq] at h
    obtain ⟨_, hs, _⟩ := okLt_lt_cons 's' ('c' :: b) (by simpa using h)
    obtain ⟨d, r3, hdr, hd⟩ := hs rfl
    obtain ⟨hdc, _⟩ := List.cons.injEq .. ▸ hdr.symm
    rcases hd with hd | hd <;> simp [hdc] at hd
  | cons x a' ih =>
    intro b heq
    rcases l with _ | ⟨c, l'⟩
    · exact absurd heq (by simp)
    · rw [List.cons_append] at heq
      obtain ⟨_, hl⟩ := List.cons.injEq .. ▸ heq
      exact ih l' (okLt_tail c l' h) b hl

/-! ## The invariant holds after escaping and is preserved by every pass -/

theorem mem_replaceChar (d : Char) (r l : List Char) (x : Char)
    (hx : x ∈ replaceChar d r l) : x ∈ r ∨ (x ∈ l ∧ x ≠ d) := by
  induction l with
  | nil => simp [replaceChar] at hx
  | cons y l' ih =>
    rw [replaceChar] at hx
    rcases List.mem_append.mp hx with h1 | h2
    · by_cases hy : y = d
      · rw [if_pos hy] at h1
        exact Or.inl h1
      · rw [if_neg hy] at h1
        rcases List.mem_singleton.mp h1 with rfl
        exact Or.inr ⟨List.mem_cons_self .., hy⟩
    · rcases ih h2 with h | ⟨hmem, hne⟩
      · exact Or.inl h
      · exact Or.inr ⟨List.mem_cons_of_mem _ hmem, hne⟩

theorem escapeHtml_no_lt (l : List Char) : ∀ x ∈ escapeHtml l, x ≠ '<' := by
  have hgt : ∀ y ∈ "&gt;".data, y ≠ '<' := by decide
  have hlt : ∀ y ∈ "&lt;".data, y ≠ '<' := by decide
  intro x hx
  rcases mem_replaceChar _ _ _ _ hx with h | ⟨hx2, _⟩
  · exact hgt x h
  · rcases mem_replaceChar _ _ _ _ hx2 with h | ⟨_, hne⟩
    · exact hlt x h
    · exact hne

theorem okLt_escapeHtml (l : List Char) : okLt (escapeHtml l) = true :=
  okLt_of_no_lt _ (escapeHtml_no_lt l)

theorem splitNl_ne_nil (l : List Char) : splitNl l ≠ [] := by
  cases l with
  | nil => simp [splitNl]
  | cons c l' =>
    rw [splitNl]
    by_cases hc : c = '\n'
    · simp [hc]
    · rw [if_neg hc]
      rcases splitNl l' with _ | ⟨h, t⟩ <;> simp

theorem splitNl_cons_ne (c : Char) (l' : List Char) (hc : c ≠ '\n') :
    ∃ h t, splitNl l' = h :: t ∧ splitNl (c :: l') = (c :: h) :: t := by
  rcases hs : splitNl l' with _ | ⟨h, t⟩
  · exact absurd hs (splitNl_ne_nil l')
  · refine ⟨h, t, rfl, ?_⟩
    rw [splitNl, if_neg hc, hs]

theorem splitNl_first (l : List Char) :
    ∀ h t, splitNl l = h :: t → ∃ y, l = h ++ y ∧ (y = [] ∨ ∃ y', y = '\n' :: y') := by
  induction l with
  | nil =>
    intro h t he
    rw [show splitNl [] = [[]] from rfl] at he
    obtain ⟨hh, ht⟩ := List.cons.injEq .. ▸ he
    exact ⟨[], by simp [← hh], Or.inl rfl⟩
  | cons c l' ih =>
    intro h t he
    by_cases hc : c = '\n'
    · subst hc
      rw [splitNl, if_pos rfl] at he
      obtain ⟨hh, _⟩ := List.cons.injEq .. ▸ he
      exact ⟨'\n' :: l', by simp [← hh], Or.inr ⟨l', rfl⟩⟩
    · obtain ⟨h0, t0, hs, he2⟩ := splitNl_cons_ne c l' hc
      rw [he2] at he
      obtain ⟨hh, ht⟩ := List.cons.injEq .. ▸ he
      obtain ⟨y, hy, hyp⟩ := ih h0 t0 hs
      exact ⟨y, by rw [← hh, hy]; rfl, hyp⟩

theorem splitNl_decomp (l : List Char) :
    ∀ b ∈ splitNl l, ∃ x y, l = x ++ b ++ y ∧ (y = [] ∨ ∃ y', y = '\n' :: y') := by
  induction l with
  | nil =>
    intro b hb
    rw [show splitNl [] = [[]] from rfl] at hb
    rcases List.mem_singleton.mp hb with rfl
    exact ⟨[], [], rfl, Or.inl rfl⟩
  | cons c l' ih =>
    intro b hb
    by_cases hc : c = '\n'
    · subst hc
      rw [splitNl, if_pos rfl] at hb
      rcases List.mem_cons.mp hb with rfl | hb2
      · exact ⟨[], '\n' :: l', rfl, Or.inr ⟨l', rfl⟩⟩
      · obtain ⟨x, y, hl, hy⟩ := ih b hb2
        exact ⟨'\n' :: x, y, by rw [hl]; rfl, hy⟩
    · obtain ⟨h0, t0, hs, he2⟩ := splitNl_cons_ne c l' hc
      rw [he2] at hb
      rcases List.mem_cons.mp hb with rfl | hb2
      · obtain ⟨y, hy, hyp⟩ := splitNl_first l' h0 t0 hs
        exact ⟨[], y, by rw [hy]; rfl, hyp⟩
      · have hb3 : b ∈ splitNl l' := by rw [hs]; exact List.mem_cons_of_mem _ hb2
        obtain ⟨x, y, hl, hy⟩ := ih b hb3
        exact ⟨c :: x, y, by rw [hl]; rfl, hy⟩

theorem splitNl_blocks_ok (l : List Char) (h : okLt l = true) :
    ∀ b ∈ splitNl l, okLt b = true := by
  intro b hb
  obtain ⟨x, y, hl, hy⟩ := splitNl_decomp l b hb
  rw [hl] at h
  have h2 : okLt (b ++ y) = true :=
    okLt_suffix x (b ++ y) (by rw [← List.append_assoc]; exact h)
  refine okLt_prefix_cut b y h2 ?_
  rcases hy with rfl | ⟨y', rfl⟩
  · exact Or.inl rfl
  · exact Or.inr ⟨'\n', y', rfl, by decide, by decide, by decide⟩

theorem joinNl_ok (bs : List (List Char)) (h : ∀ b ∈ bs, okLt b = true) :
    okLt (joinNl bs) = true := by
  induction bs with
  | nil => rfl
  | cons x xs ih =>
    rcases xs with _ | ⟨y, t⟩
    · simpa [joinNl] using h x (List.mem_cons_self ..)
    · rw [show joinNl (x :: y :: t) = x ++ '\n' :: joinNl (y :: t) from rfl]
      refine okLt_append _ _ (h x (List.mem_cons_self ..)) ?_
      rw [okLt_cons_ne _ _ (by decide)]
      exact ih (fun b hb => h b (List.mem_cons_of_mem _ hb))

theorem headingPass_ok (marker pre post l : List Char)
    (hpre : okLt pre = true) (hpost : okLt post = true) (h : okLt l = true) :
    okLt (headingPass marker pre post l) = true := by
  unfold headingPass
  refine joinNl_ok _ ?_
  intro b hb
  obtain ⟨line, hline, rfl⟩ := List.mem_map.mp hb
  have hlok := splitNl_blocks_ok l h line hline
  by_cases hm : marker.isPrefixOf line
  · rw [if_pos hm]
    refine okLt_append _ _ (okLt_append _ _ hpre ?_) hpost
    have hsplit := List.take_append_drop marker.length line
    exact okLt_suffix _ _ (by rw [hsplit]; exact hlok)
  · rw [if_neg hm]
    exact hlok

theorem goodAfterLt_ne_lt (c : Char) (h : goodAfterLt c = true) : c ≠ '<' := by
  intro he; rw [he] at h; exact absurd h (by decide)

theorem tp_ne_lt (d : Char) (hd : d = 't' ∨ d = 'p') : d ≠ '<' := by
  rcases hd with rfl | rfl <;> decide

/-- Generic `<`-peeling: if a scanner passes all legal `<`-successor
characters through unchanged and keeps the invariant on every suffix of
what follows, its output after a `<` satisfies the invariant. -/
theorem okLt_lt_peel (F : List Char → List Char) (c2 : Char) (rest2 : List Char)
    (hg : goodAfterLt c2 = true)
    (hscond : c2 = 's' → ∃ d r3, rest2 = d :: r3 ∧ (d = 't' ∨ d = 'p'))
    (hF : ∀ (x : Char) (r : List Char),
      goodAfterLt x = true ∨ x = 't' ∨ x = 'p' → F (x :: r) = x :: F r)
    (hrec : ∀ r, r <:+ rest2 → okLt (F r) = true) :
    okLt ('<' :: F (c2 :: rest2)) = true := by
  rw [hF c2 rest2 (Or.inl hg)]
  by_cases hc2 : c2 = 's'
  · obtain ⟨d, r3, rfl, hd⟩ := hscond hc2
    rw [hF d r3 (Or.inr hd)]
    refine okLt_lt_build c2 (d :: F r3) hg (fun _ => ⟨d, F r3, rfl, hd⟩) ?_
    rw [okLt_cons_ne c2 _ (goodAfterLt_ne_lt c2 hg), okLt_cons_ne d _ (tp_ne_lt d hd)]
    exact hrec r3 ⟨[d], rfl⟩
  · refine okLt_lt_build c2 (F rest2) hg (fun hs => absurd hs hc2) ?_
    rw [okLt_cons_ne c2 _ (goodAfterLt_ne_lt c2 hg)]
    exact hrec rest2 (List.suffix_refl rest2)

theorem boldAux_cons_nontrigger (c : Char) (rest : List Char)
    (h : ¬(c = '*' ∧ rest.head? = some '*')) :
    boldAux (c :: rest) = c :: boldAux rest := by
  rw [boldAux.eq_def]
  dsimp only
  rw [if_neg h]

theorem okLt_suffix_of_isSuffix (r l : List Char) (hs : r <:+ l) (h : okLt l = true) :
    okLt r = true := by
  obtain ⟨a, rfl⟩ := hs
  exact okLt_suffix a r h

theorem boldAux_ok : ∀ (n : ℕ) (l : List Char), l.length ≤ n → okLt l = true →
    okLt (boldAux l) = true := by
  intro n
  induction n with
  | zero =>
    intro l hl _
    rw [List.length_eq_zero.mp (Nat.le_zero.mp hl)]
    simp [boldAux, okLt]
  | succ n ih =>
    intro l hl h
    rcases l with _ | ⟨c, rest⟩
    · simp [boldAux, okLt]
    · by_cases htrig : c = '*' ∧ rest.head? = some '*'
      · obtain ⟨rfl, hh⟩ := htrig
        rcases rest with _ | ⟨r1, rtail⟩
        · exact absurd hh (by simp)
        · have hr1 : r1 = '*' := by simpa using hh
          subst hr1
          rw [boldAux.eq_def]
          dsimp only
          rw [if_pos ⟨rfl, rfl⟩]
          split
          · rename_i cap rest' hfc
            have hspec := findBoldClose_eq rtail cap rest' hfc
            have hok_tail : okLt rtail = true := okLt_tail _ _ (okLt_tail _ _ h)
            rw [hspec] at hok_tail
            have hcap : okLt cap = true := by
              refine okLt_prefix_cut cap _ hok_tail ?_
              exact Or.inr ⟨'*', '*' :: rest', rfl, by decide, by decide, by decide⟩
            have hrest' : okLt rest' = true :=
              okLt_tail _ _ (okLt_tail _ _ (okLt_suffix cap _ hok_tail))
            have hlen : rest'.length ≤ n := by
              have := congrArg List.length hspec
              simp [List.length_append] at this
              simp only [List.length_cons] at hl
              omega
            simp only [List.append_eq, List.nil_append, List.append_assoc]
            exact okLt_append strongPre _ (by decide) (okLt_append cap _ hcap
              (okLt_append strongPost _ (by decide) (ih rest' hlen hrest')))
          · rw [okLt_cons_ne _ _ (by decide)]
            exact ih ('*' :: rtail) (by simpa using hl) (okLt_tail _ _ h)
      · rw [boldAux_cons_nontrigger c rest htrig]
        by_cases hc : c = '<'
        · subst hc
          rcases rest with _ | ⟨c2, rest2⟩
          · exact absurd h (by decide)
          · obtain ⟨hg, hscond, hrest⟩ := okLt_lt_cons c2 rest2 h
            refine okLt_lt_peel boldAux c2 rest2 hg hscond ?_ ?_
            · intro x r hx
              refine boldAux_cons_nontrigger x r ?_
              rintro ⟨rfl, _⟩
              rcases hx with hx | hx | hx
              · exact absurd hx (by decide)
              · exact absurd hx (by decide)
              · exact absurd hx (by decide)
            · intro r hsuf
              refine ih r ?_ (okLt_suffix_of_isSuffix r rest2 hsuf
                (okLt_tail _ _ hrest))
              have := hsuf.length_le
              simp only [List.length_cons] at hl
              omega
        · rw [okLt_cons_ne _ _ hc]
          exact ih rest (by simp only [List.length_cons] at hl; omega) (okLt_tail _ _ h)

theorem italicAux_cons_nontrigger (c : Char) (rest : List Char) (h : ¬c = '*') :
    italicAux (c :: rest) = c :: italicAux rest := by
  rw [italicAux.eq_def]
  dsimp only
  rw [if_neg h]

theorem italicAux_ok : ∀ (n : ℕ) (l : List Char), l.length ≤ n → okLt l = true →
    okLt (italicAux l) = true := by
  intro n
  induction n with
  | zero =>
    intro l hl _
    rw [List.length_eq_zero.mp (Nat.le_zero.mp hl)]
    simp [italicAux, okLt]
  | succ n ih =>
    intro l hl h
    rcases l with _ | ⟨c, rest⟩
    · simp [italicAux, okLt]
    · by_cases htrig : c = '*'
      · subst htrig
        rw [italicAux.eq_def]
        dsimp only
        rw [if_pos rfl]
        split
        · rename_i cap rest' hfc
          have hspec := findItalicClose_eq rest cap rest' hfc
          have hok_tail : okLt rest = true := okLt_tail _ _ h
          rw [hspec] at hok_tail
          have hcap : okLt cap = true := by
            refine okLt_prefix_cut cap _ hok_tail ?_
            exact Or.inr ⟨'*', rest', rfl, by decide, by decide, by decide⟩
          have hrest' : okLt rest' = true :=
            okLt_tail _ _ (okLt_suffix cap _ hok_tail)
          have hlen : rest'.length ≤ n := by
            have := congrArg List.length hspec
            simp [List.length_append] at this
            simp only [List.length_cons] at hl
            omega
          simp only [List.append_eq, List.nil_append, List.append_assoc]
          exact okLt_append emPre _ (by decide) (okLt_append cap _ hcap
            (okLt_append emPost _ (by decide) (ih rest' hlen hrest')))
        · rw [okLt_cons_ne _ _ (by decide)]
          exact ih rest (by simp only [List.length_cons] at hl; omega) (okLt_tail _ _ h)
      · rw [italicAux_cons_nontrigger c rest htrig]
        by_cases hc : c = '<'
        · subst hc
          rcases rest with _ | ⟨c2, rest2⟩
          · exact absurd h (by decide)
          · obtain ⟨hg, hscond, hrest⟩ := okLt_lt_cons c2 rest2 h
            refine okLt_lt_peel italicAux c2 rest2 hg hscond ?_ ?_
            · intro x r hx
              refine italicAux_cons_nontrigger x r ?_
              rintro rfl
              rcases hx with hx | hx | hx <;> exact absurd hx (by decide)
            · intro r hsuf
              refine ih r ?_ (okLt_suffix_of_isSuffix r rest2 hsuf (okLt_tail _ _ hrest))
              have := hsuf.length_le
              simp only [List.length_cons] at hl
              omega
        · rw [okLt_cons_ne _ _ hc]
          exact ih rest (by simp only [List.length_cons] at hl; omega) (okLt_tail _ _ h)

theorem codeAux_cons_nontrigger (c : Char) (rest : List Char) (h : ¬c = '`') :
    codeAux (c :: rest) = c :: codeAux rest := by
  rw [codeAux.eq_def]
  dsimp only
  rw [if_neg h]

theorem codeAux_ok : ∀ (n : ℕ) (l : List Char), l.length ≤ n → okLt l = true →
    okLt (codeAux l) = true := by
  intro n
  induction n with
  | zero =>
    intro l hl _
    rw [List.length_eq_zero.mp (Nat.le_zero.mp hl)]
    simp [codeAux, okLt]
  | succ n ih =>
    intro l hl h
    rcases l with _ | ⟨c, rest⟩
    · simp [codeAux, okLt]
    · by_cases htrig : c = '`'
      · subst htrig
        rw [codeAux.eq_def]
        dsimp only
        rw [if_pos rfl]
        split
        · rw [okLt_cons_ne _ _ (by decide)]
          exact ih rest (by simp only [List.length_cons] at hl; omega) (okLt_tail _ _ h)
        · rename_i c2 cap rest' hfc
          have hspec := findCodeClose_eq rest (c2 :: cap) rest' hfc
          have hok_tail : okLt rest = true := okLt_tail _ _ h
          rw [hspec] at hok_tail
          have hcap : okLt (c2 :: cap) = true := by
            refine okLt_prefix_cut (c2 :: cap) _ hok_tail ?_
            exact Or.inr ⟨'`', rest', rfl, by decide, by decide, by decide⟩
          have hrest' : okLt rest' = true :=
            okLt_tail _ _ (okLt_suffix (c2 :: cap) _ hok_tail)
          have hlen : rest'.length ≤ n := by
            have := congrArg List.length hspec
            simp [List.length_append] at this
            simp only [List.length_cons] at hl
            omega
          simp only [List.append_eq, List.nil_append, List.append_assoc, List.cons_append]
          refine okLt_append codePre _ (by decide) ?_
          rw [← List.cons_append]
          exact okLt_append (c2 :: cap) _ hcap
            (okLt_append codePost _ (by decide) (ih rest' hlen hrest'))
        · rw [okLt_cons_ne _ _ (by decide)]
          exact ih rest (by simp only [List.length_cons] at hl; omega) (okLt_tail _ _ h)
      · rw [codeAux_cons_nontrigger c rest htrig]
        by_cases hc : c = '<'
        · subst hc
          rcases rest with _ | ⟨c2, rest2⟩
          · exact absurd h (by decide)
          · obtain ⟨hg, hscond, hrest⟩ := okLt_lt_cons c2 rest2 h
            refine okLt_lt_peel codeAux c2 rest2 hg hscond ?_ ?_
            · intro x r hx
              refine codeAux_cons_nontrigger x r ?_
              rintro rfl
              rcases hx with hx | hx | hx <;> exact absurd hx (by decide)
            · intro r hsuf
              refine ih r ?_ (okLt_suffix_of_isSuffix r rest2 hsuf (okLt_tail _ _ hrest))
              have := hsuf.length_le
              simp only [List.length_cons] at hl
              omega
        · rw [okLt_cons_ne _ _ hc]
          exact ih rest (by simp only [List.length_cons] at hl; omega) (okLt_tail _ _ h)

theorem linkAux_cons_nontrigger (c : Char) (rest : List Char) (h : ¬c = '[') :
    linkAux (c :: rest) = c :: linkAux rest := by
  rw [linkAux.eq_def]
  dsimp only
  rw [if_neg h]

theorem linkAux_ok : ∀ (n : ℕ) (l : List Char), l.length ≤ n → okLt l = true →
    okLt (linkAux l) = true := by
  intro n
  induction n with
  | zero =>
    intro l hl _
    rw [List.length_eq_zero.mp (Nat.le_zero.mp hl)]
    simp [linkAux, okLt]
  | succ n ih =>
    intro l hl h
    rcases l with _ | ⟨c, rest⟩
    · simp [linkAux, okLt]
    · by_cases htrig : c = '['
      · subst htrig
        rw [linkAux.eq_def]
        dsimp only
        rw [if_pos rfl]
        split
        · rename_i txt url rest' hm
          obtain ⟨hdecomp, _, _⟩ := tryLink_some rest txt url rest' hm
          have hok_tail : okLt rest = true := okLt_tail _ _ h
          rw [hdecomp] at hok_tail
          simp only [List.cons_append, List.append_assoc] at hok_tail
          have htxt : okLt txt = true := by
            refine okLt_prefix_cut txt _ hok_tail ?_
            exact Or.inr ⟨']', '(' :: (url ++ ')' :: rest'), rfl, by decide, by decide, by decide⟩
          have hmid : okLt (url ++ ')' :: rest') = true :=
            okLt_tail _ _ (okLt_tail _ _ (okLt_suffix txt _ hok_tail))
          have hurl : okLt url = true := by
            refine okLt_prefix_cut url _ hmid ?_
            exact Or.inr ⟨')', rest', rfl, by decide, by decide, by decide⟩
          have hrest' : okLt rest' = true :=
            okLt_tail _ _ (okLt_suffix url _ hmid)
          have hlen : rest'.length ≤ n := by
            have := tryLink_length rest txt url rest' hm
            simp only [List.length_cons] at hl
            omega
          simp only [List.append_eq, List.nil_append, List.append_assoc]
          exact okLt_append aPre _ (by decide) (okLt_append url _ hurl
            (okLt_append aMid _ (by decide) (okLt_append txt _ htxt
              (okLt_append aPost _ (by decide) (ih rest' hlen hrest')))))
        · rw [okLt_cons_ne _ _ (by decide)]
          exact ih rest (by simp only [List.length_cons] at hl; omega) (okLt_tail _ _ h)
      · rw [linkAux_cons_nontrigger c rest htrig]
        by_cases hc : c = '<'
        · subst hc
          rcases rest with _ | ⟨c2, rest2⟩
          · exact absurd h (by decide)
          · obtain ⟨hg, hscond, hrest⟩ := okLt_lt_cons c2 rest2 h
            refine okLt_lt_peel linkAux c2 rest2 hg hscond ?_ ?_
            · intro x r hx
              refine linkAux_cons_nontrigger x r ?_
              rintro rfl
              rcases hx with hx | hx | hx <;> exact absurd hx (by decide)
            · intro r hsuf
              refine ih r ?_ (okLt_suffix_of_isSuffix r rest2 hsuf (okLt_tail _ _ hrest))
              have := hsuf.length_le
              simp only [List.length_cons] at hl
              omega
        · rw [okLt_cons_ne _ _ hc]
          exact ih rest (by simp only [List.length_cons] at hl; omega) (okLt_tail _ _ h)

theorem dropWhile_head_false (p : Char → Bool) (l : List Char) (d : Char) (r : List Char)
    (h : l.dropWhile p = d :: r) : p d = false := by
  induction l with
  | nil => simp at h
  | cons c l' ih =>
    rw [List.dropWhile_cons] at h
    by_cases hc : p c
    · rw [if_pos hc] at h; exact ih h
    · rw [if_neg hc] at h
      obtain ⟨hd, _⟩ := List.cons.injEq .. ▸ h
      rw [← hd]
      exact Bool.eq_false_iff.mpr hc

theorem listAux_cons_false (c : Char) (rest : List Char) :
    listAux false (c :: rest) = c :: listAux (decide (c = '\n')) rest := by
  rw [listAux.eq_def]
  dsimp only
  rw [if_neg Bool.false_ne_true]

theorem listAux_cons_true_none (c : Char) (rest : List Char)
    (hm : tryListMatch (c :: rest) = none) :
    listAux true (c :: rest) = c :: listAux (decide (c = '\n')) rest := by
  rw [listAux.eq_def]
  dsimp only
  rw [if_pos rfl]
  split
  · rename_i cap rest' hm2
    rw [hm] at hm2
    exact absurd hm2 (by simp)
  · rfl

theorem listAux_cons_true_some (c : Char) (rest cap rest' : List Char)
    (hm : tryListMatch (c :: rest) = some (cap, rest')) :
    listAux true (c :: rest) = liPre ++ cap ++ liPost ++ listAux false rest' := by
  rw [listAux.eq_def]
  dsimp only
  rw [if_pos rfl]
  split
  · rename_i cap2 rest2 hm2
    rw [hm] at hm2
    obtain ⟨h1, h2⟩ := Prod.mk.injEq .. ▸ Option.some_inj.mp hm2
    rw [← h1, ← h2]
  · rename_i hm2
    rw [hm] at hm2
    exact absurd hm2 (by simp)

theorem listAux_ok : ∀ (n : ℕ) (flag : Bool) (l : List Char), l.length ≤ n →
    okLt l = true → okLt (listAux flag l) = true := by
  intro n
  induction n with
  | zero =>
    intro flag l hl _
    rw [List.length_eq_zero.mp (Nat.le_zero.mp hl)]
    simp [listAux, okLt]
  | succ n ih =>
    intro flag l hl h
    rcases l with _ | ⟨c, rest⟩
    · simp [listAux, okLt]
    · have hcont : okLt (c :: listAux (decide (c = '\n')) rest) = true := by
        by_cases hc : c = '<'
        · subst hc
          rw [show (decide ('<' = '\n')) = false by decide]
          rcases rest with _ | ⟨c2, rest2⟩
          · exact absurd h (by decide)
          · obtain ⟨hg, hscond, hrest⟩ := okLt_lt_cons c2 rest2 h
            refine okLt_lt_peel (listAux false) c2 rest2 hg hscond ?_ ?_
            · intro x r hx
              have hxn : ¬(x = '\n') := by
                rintro rfl
                rcases hx with hx | hx | hx <;> exact absurd hx (by decide)
              rw [listAux_cons_false x r, decide_eq_false hxn]
            · intro r hsuf
              refine ih false r ?_ (okLt_suffix_of_isSuffix r rest2 hsuf (okLt_tail _ _ hrest))
              have := hsuf.length_le
              simp only [List.length_cons] at hl
              omega
        · rw [okLt_cons_ne _ _ hc]
          exact ih _ rest (by simp only [List.length_cons] at hl; omega) (okLt_tail _ _ h)
      rcases flag with _ | _
      · rw [listAux_cons_false c rest]
        exact hcont
      · rcases hm : tryListMatch (c :: rest) with _ | ⟨cap, rest'⟩
        · rw [listAux_cons_true_none c rest hm]
          exact hcont
        · rw [listAux_cons_true_some c rest cap rest' hm]
          obtain ⟨m, rest2m, hmk, hdrop, hcap, hrest'⟩ :=
            tryListMatch_some (c :: rest) cap rest' hm
          have hsplit : (c :: rest) = (c :: rest).takeWhile jsWhitespace ++ (m :: ' ' :: rest2m) := by
            conv_lhs => rw [← List.takeWhile_append_dropWhile jsWhitespace (c :: rest)]
            rw [hdrop]
          have hok2 : okLt (m :: ' ' :: rest2m) = true := by
            rw [hsplit] at h
            exact okLt_suffix _ _ h
          have hokrest2 : okLt rest2m = true := okLt_tail _ _ (okLt_tail _ _ hok2)
          have hr2split : rest2m = cap ++ rest' := by
            rw [hcap, hrest']
            exact (List.takeWhile_append_dropWhile _ _).symm
          have hokcap : okLt cap = true := by
            refine okLt_prefix_cut cap rest' (by rw [← hr2split]; exact hokrest2) ?_
            rcases hre : rest' with _ | ⟨d, r⟩
            · exact Or.inl rfl
            · have hd := dropWhile_head_false _ rest2m d r (by rw [← hre]; exact hrest'.symm)
              have hdn : d = '\n' := by simpa using hd
              subst hdn
              exact Or.inr ⟨'\n', r, rfl, by decide, by decide, by decide⟩
          have hokrest' : okLt rest' = true :=
            okLt_suffix cap rest' (by rw [← hr2split]; exact hokrest2)
          have hlen : rest'.length ≤ n := by
            have := tryListMatch_length (c :: rest) cap rest' hm
            simp only [List.length_cons] at this hl
            omega
          simp only [List.append_assoc]
          exact okLt_append liPre _ (by decide) (okLt_append cap _ hokcap
            (okLt_append liPost _ (by decide) (ih false rest' hlen hokrest')))

theorem splitPara_ne_nil (l : List Char) : splitPara l ≠ [] := by
  rcases l with _ | ⟨c, rest⟩
  · simp [splitPara]
  · rw [splitPara.eq_def]
    dsimp only
    by_cases hsep : c = '\n' ∧ rest.head? = some '\n'
    · rw [if_pos hsep]; simp
    · rw [if_neg hsep]
      split <;> simp

theorem splitPara_cons_sep (rest : List Char) :
    splitPara ('\n' :: '\n' :: rest) = [] :: splitPara rest := by
  rw [splitPara.eq_def]
  dsimp only
  rw [if_pos ⟨rfl, rfl⟩]
  rfl

theorem splitPara_cons_ne (c : Char) (rest : List Char)
    (h : ¬(c = '\n' ∧ rest.head? = some '\n')) :
    ∃ h0 t0, splitPara rest = h0 :: t0 ∧ splitPara (c :: rest) = (c :: h0) :: t0 := by
  rcases hs : splitPara rest with _ | ⟨h0, t0⟩
  · exact absurd hs (splitPara_ne_nil rest)
  · refine ⟨h0, t0, rfl, ?_⟩
    rw [splitPara.eq_def]
    dsimp only
    rw [if_neg h, hs]

theorem splitPara_first : ∀ (n : ℕ) (l : List Char), l.length ≤ n →
    ∀ h t, splitPara l = h :: t → ∃ y, l = h ++ y ∧ (y = [] ∨ ∃ y', y = '\n' :: y') := by
  intro n
  induction n with
  | zero =>
    intro l hl h t he
    rw [List.length_eq_zero.mp (Nat.le_zero.mp hl)] at he ⊢
    rw [show splitPara [] = [[]] from by simp [splitPara]] at he
    obtain ⟨hh, _⟩ := List.cons.injEq .. ▸ he
    exact ⟨[], by simp [← hh], Or.inl rfl⟩
  | succ n ih =>
    intro l hl h t he
    rcases l with _ | ⟨c, rest⟩
    · rw [show splitPara [] = [[]] from by simp [splitPara]] at he
      obtain ⟨hh, _⟩ := List.cons.injEq .. ▸ he
      exact ⟨[], by simp [← hh], Or.inl rfl⟩
    · by_cases hsep : c = '\n' ∧ rest.head? = some '\n'
      · obtain ⟨rfl, hh2⟩ := hsep
        rcases rest with _ | ⟨c2, rest2⟩
        · simp at hh2
        · have hc2 : c2 = '\n' := by simpa using hh2
          subst hc2
          rw [splitPara_cons_sep rest2] at he
          obtain ⟨hh, _⟩ := List.cons.injEq .. ▸ he
          exact ⟨'\n' :: '\n' :: rest2, by simp [← hh], Or.inr ⟨'\n' :: rest2, rfl⟩⟩
      · obtain ⟨h0, t0, hs, he2⟩ := splitPara_cons_ne c rest hsep
        rw [he2] at he
        obtain ⟨hh, ht⟩ := List.cons.injEq .. ▸ he
        obtain ⟨y, hy, hyp⟩ := ih rest (by simp only [List.length_cons] at hl; omega) h0 t0 hs
        exact ⟨y, by rw [← hh, hy]; rfl, hyp⟩

theorem splitPara_decomp : ∀ (n : ℕ) (l : List Char), l.length ≤ n →
    ∀ b ∈ splitPara l, ∃ x y, l = x ++ b ++ y ∧ (y = [] ∨ ∃ y', y = '\n' :: y') := by
  intro n
  induction n with
  | zero =>
    intro l hl b hb
    rw [List.length_eq_zero.mp (Nat.le_zero.mp hl)] at hb ⊢
    rw [show splitPara [] = [[]] from by simp [splitPara]] at hb
    rcases List.mem_singleton.mp hb with rfl
    exact ⟨[], [], rfl, Or.inl rfl⟩
  | succ n ih =>
    intro l hl b hb
    rcases l with _ | ⟨c, rest⟩
    · rw [show splitPara [] = [[]] from by simp [splitPara]] at hb
      rcases List.mem_singleton.mp hb with rfl
      exact ⟨[], [], rfl, Or.inl rfl⟩
    · by_cases hsep : c = '\n' ∧ rest.head? = some '\n'
      · obtain ⟨rfl, hh2⟩ := hsep
        rcases rest with _ | ⟨c2, rest2⟩
        · simp at hh2
        · have hc2 : c2 = '\n' := by simpa using hh2
          subst hc2
          rw [splitPara_cons_sep rest2] at hb
          rcases List.mem_cons.mp hb with rfl | hb2
          · exact ⟨[], '\n' :: '\n' :: rest2, rfl, Or.inr ⟨'\n' :: rest2, rfl⟩⟩
          · obtain ⟨x, y, hl2, hy⟩ := ih rest2
              (by simp only [List.length_cons] at hl; omega) b hb2
            exact ⟨'\n' :: '\n' :: x, y, by rw [hl2]; rfl, hy⟩
      · obtain ⟨h0, t0, hs, he2⟩ := splitPara_cons_ne c rest hsep
        rw [he2] at hb
        rcases List.mem_cons.mp hb with rfl | hb2
        · obtain ⟨y, hy, hyp⟩ := splitPara_first rest.length rest le_rfl h0 t0 hs
          exact ⟨[], y, by rw [hy]; rfl, hyp⟩
        · have hb3 : b ∈ splitPara rest := by rw [hs]; exact List.mem_cons_of_mem _ hb2
          obtain ⟨x, y, hl2, hy⟩ := ih rest
            (by simp only [List.length_cons] at hl; omega) b hb3
          exact ⟨c :: x, y, by rw [hl2]; rfl, hy⟩

theorem splitPara_blocks_ok (l : List Char) (h : okLt l = true) :
    ∀ b ∈ splitPara l, okLt b = true := by
  intro b hb
  obtain ⟨x, y, hl, hy⟩ := splitPara_decomp l.length l le_rfl b hb
  rw [hl] at h
  have h2 : okLt (b ++ y) = true :=
    okLt_suffix x (b ++ y) (by rw [← List.append_assoc]; exact h)
  refine okLt_prefix_cut b y h2 ?_
  rcases hy with rfl | ⟨y', rfl⟩
  · exact Or.inl rfl
  · exact Or.inr ⟨'\n', y', rfl, by decide, by decide, by decide⟩

theorem paraPass_ok (l : List Char) (h : okLt l = true) : okLt (paraPass l) = true := by
  unfold paraPass
  refine joinNl_ok _ ?_
  intro b hb
  obtain ⟨p, hp, rfl⟩ := List.mem_map.mp hb
  have hpok := splitPara_blocks_ok l h p hp
  by_cases hcond : (lineNonBlank p && !(p.contains '<')) = true
  · rw [if_pos hcond]
    exact okLt_append pPre _ (by decide) (okLt_append p _ hpok (by decide))
  · rw [if_neg hcond]
    exact hpok

/-- The whole markdown chain preserves the `<`-shape invariant. -/
theorem markdownPasses_ok (l : List Char) (h : okLt l = true) :
    okLt (markdownPasses l) = true := by
  unfold markdownPasses
  have g1 := headingPass_ok "#### ".data h4Pre h4Post l (by decide) (by decide) h
  have g2 := headingPass_ok "### ".data h3Pre h3Post _ (by decide) (by decide) g1
  have g3 := headingPass_ok "## ".data h2Pre h2Post _ (by decide) (by decide) g2
  have g4 := headingPass_ok "# ".data h1Pre h1Post _ (by decide) (by decide) g3
  have g5 := boldAux_ok _ _ le_rfl g4
  have g6 := italicAux_ok _ _ le_rfl g5
  have g7 := codeAux_ok _ _ le_rfl g6
  have g8 := listAux_ok _ true _ le_rfl g7
  have g9 := linkAux_ok _ _ le_rfl g8
  exact paraPass_ok _ g9

/-- C6: `renderMarkdown` HTML-escapes `&`, `<`, `>` before any markdown
transformation (second conjunct, structurally), and consequently no output
of `renderMarkdown`, on any input, ever contains the literal character
sequence `<script` that could form a live element — injected angle brackets
survive only as escaped text. -/
theorem renderMarkdown_safe (s : String) :
    (∀ a b : List Char, (renderMarkdown s).data ≠
        a ++ ('<' :: 's' :: 'c' :: 'r' :: 'i' :: 'p' :: 't' :: b)) ∧
    (s ≠ "" → renderMarkdown s = String.mk (markdownPasses (escapeHtml s.data))) := by
  constructor
  · intro a b heq
    by_cases hs : s = ""
    · rw [hs] at heq
      rw [show renderMarkdown "" = "" from by rw [renderMarkdown]; simp] at heq
      simp at heq
    · have hmk : (renderMarkdown s).data = markdownPasses (escapeHtml s.data) := by
        rw [renderMarkdown, if_neg hs]
      rw [hmk] at heq
      have hok := markdownPasses_ok _ (okLt_escapeHtml s.data)
      exact okLt_no_script _ hok a ('r' :: 'i' :: 'p' :: 't' :: b) heq
  · intro hs
    rw [renderMarkdown, if_neg hs]

/-- Witness for C6 on a `<script>` payload. -/
theorem renderMarkdown_safe_witness :
    (renderMarkdown "<script>alert(1)</script>").data ≠
      [] ++ ('<' :: 's' :: 'c' :: 'r' :: 'i' :: 'p' :: 't' :: []) ∧
    renderMarkdown "<script>alert(1)</script>"
      = String.mk (markdownPasses (escapeHtml "<script>alert(1)</script>".data)) :=
  ⟨(renderMarkdown_safe "<script>alert(1)</script>").1 [] [],
   (renderMarkdown_safe "<script>alert(1)</script>").2 (by decide)⟩

end Nimi
